import Mathlib

/-!
Verification of `WinWord_Ref/add_word_source.py`: an APA-like book citation
parser (`parse_book_apa_like`) and a Word bibliography merger
(`source_tag_exists`, `next_reforder`, `build_book_source`, `main`).

Strings are modelled as `List Char`.  Whitespace and digits are modelled as
their ASCII variants; all citation strings of interest are ASCII, and the
parser normalizes every whitespace run to a single space before any other
processing, so no processed string contains a newline.
-/

abbrev LC := List Char

/-- ASCII whitespace, the characters matched by the regex class `\s`. -/
def isWsC (c : Char) : Bool :=
  c == ' ' || c == '\t' || c == '\n' || c == '\r' || c == '\x0b' || c == '\x0c'

/-- ASCII decimal digit, the characters matched by the regex class `\d`. -/
def isDigitC (c : Char) : Bool := '0' ≤ c && c ≤ '9'

/-- ASCII uppercase letter, the characters matched by `[A-Z]`. -/
def isUpperC (c : Char) : Bool := 'A' ≤ c && c ≤ 'Z'

/-- Python `str.lstrip()` restricted to a character predicate. -/
def stripLeft (p : Char → Bool) (l : LC) : LC := l.dropWhile p

/-- Python `str.rstrip()` restricted to a character predicate. -/
def stripRight (p : Char → Bool) (l : LC) : LC := (l.reverse.dropWhile p).reverse

/-- Python `s.strip()` (whitespace on both ends). -/
def pstrip (l : LC) : LC := stripLeft isWsC (stripRight isWsC l)

/-- Python `s.rstrip(".")`. -/
def rstripDot (l : LC) : LC := stripRight (fun c => c == '.') l

/-- Python `s.lstrip(". ")`. -/
def lstripDotSpace (l : LC) : LC := stripLeft (fun c => c == '.' || c == ' ') l

/-- Replace each maximal whitespace run by a single space:
`re.sub(r"\s+", " ", s)`. -/
def collapseWs : LC → LC
  | [] => []
  | [c] => if isWsC c then [' '] else [c]
  | c :: d :: rest =>
    if isWsC c && isWsC d then collapseWs (d :: rest)
    else (if isWsC c then ' ' else c) :: collapseWs (d :: rest)

/-- Line 43 of the source: `re.sub(r"\s+", " ", s.strip())`. -/
def pyNormalize (s : LC) : LC := collapseWs (pstrip s)

/-- Index of the first occurrence of the character `c`, as `str.find`. -/
def findCharIdx (c : Char) : LC → Option Nat
  | [] => none
  | d :: rest => if d == c then some 0 else (findCharIdx c rest).map (· + 1)

/-- `startsWith q l` holds iff `q` is a prefix of `l`. -/
def startsWith : LC → LC → Bool
  | [], _ => true
  | _ :: _, [] => false
  | c :: q, d :: l => c == d && startsWith q l

/-- Index of the leftmost occurrence of `sep` in `l` (as `str.find`). -/
def findSubIdx (sep : LC) : LC → Option Nat
  | [] => if sep.isEmpty then some 0 else none
  | c :: rest =>
    if startsWith sep (c :: rest) then some 0
    else (findSubIdx sep rest).map (· + 1)

/-- `containsSub sep l` iff `sep` occurs somewhere in `l`. -/
def containsSub (sep l : LC) : Bool := (findSubIdx sep l).isSome

/-- Fuel-driven worker for Python `str.split(sep)` (non-overlapping,
left to right, keeping empty pieces). -/
def splitFuel (sep : LC) : Nat → LC → List LC
  | 0, l => [l]
  | fuel + 1, l =>
    match findSubIdx sep l with
    | none => [l]
    | some i => l.take i :: splitFuel sep fuel (l.drop (i + sep.length))

/-- Python `l.split(sep)` for a non-empty separator. -/
def splitOnSub (sep l : LC) : List LC := splitFuel sep (l.length + 1) l

/-- Fuel-driven worker for Python `str.replace(pat, rep)`. -/
def replaceFuel (pat rep : LC) : Nat → LC → LC
  | 0, l => l
  | fuel + 1, l =>
    match findSubIdx pat l with
    | none => l
    | some i => l.take i ++ rep ++ replaceFuel pat rep fuel (l.drop (i + pat.length))

/-- Python `l.replace(pat, rep)` for a non-empty pattern. -/
def replaceSub (pat rep l : LC) : LC := replaceFuel pat rep (l.length + 1) l

/-- Does `l` start with the fixed-width pattern `\((\d{4})\)`? -/
def startsWithYear : LC → Bool
  | x0 :: x1 :: x2 :: x3 :: x4 :: x5 :: _ =>
    x0 == '(' && isDigitC x1 && isDigitC x2 && isDigitC x3 && isDigitC x4 && x5 == ')'
  | _ => false

/-- Start index of the leftmost `\((\d{4})\)` match: `re.search` on line 45. -/
def findYearIdx : LC → Option Nat
  | [] => none
  | c :: rest =>
    if startsWithYear (c :: rest) then some 0
    else (findYearIdx rest).map (· + 1)

/-- Lookahead `(?=[A-Z][^,]+,)` of the author-splitting regex on line 58:
an uppercase letter, then at least one non-comma character, then a comma. -/
def lookaheadOk : LC → Bool
  | [] => false
  | c :: v =>
    isUpperC c &&
      (match findCharIdx ',' v with
       | some k => decide (1 ≤ k)
       | none => false)

/-- Try to match `\.\s+(?=[A-Z][^,]+,)` at the head of `l`: on success
return the length of the (maximal) whitespace run consumed after the dot.
Because the lookahead must start with a non-whitespace character, the
greedy `\s+` always consumes the whole whitespace run. -/
def matchDotWs (l : LC) : Option Nat :=
  match l with
  | [] => none
  | c :: rest =>
    if c == '.' then
      if (rest.takeWhile isWsC).length = 0 then none
      else if lookaheadOk (rest.drop (rest.takeWhile isWsC).length) then
        some (rest.takeWhile isWsC).length
      else none
    else none

/-- Leftmost match of the author-splitting regex: start index and length of
its whitespace run. -/
def findSplitPos : LC → Option (Nat × Nat)
  | [] => none
  | c :: rest =>
    match matchDotWs (c :: rest) with
    | some r => some (0, r)
    | none => (findSplitPos rest).map (fun p => (p.1 + 1, p.2))

/-- Fuel-driven worker for `re.split(r"\.\s+(?=[A-Z][^,]+,)", chunk)`. -/
def reSplitFuel : Nat → LC → List LC
  | 0, l => [l]
  | fuel + 1, l =>
    match findSplitPos l with
    | none => [l]
    | some (i, r) => l.take i :: reSplitFuel fuel (l.drop (i + 1 + r))

/-- `re.split(r"\.\s+(?=[A-Z][^,]+,)", chunk)` on line 58. -/
def reSplitAuthors (l : LC) : List LC := reSplitFuel (l.length + 1) l

/-- The author-fragment regex `^(?P<last>[^,]+),\s*(?P<first>.+)$` of
line 65, returning the stripped `last` and `first` groups.  `[^,]+` is
forced to stop at the first comma; `\s*` is greedy but backtracks by one
character when nothing would be left for `.+`. -/
def matchAuthor (p : LC) : Option (LC × LC) :=
  match findCharIdx ',' p with
  | none => none
  | some k =>
    if k = 0 then none
    else if (p.drop (k + 1)).isEmpty then none
    else
      some (pstrip (p.take k),
        pstrip (if ((p.drop (k + 1)).dropWhile isWsC).isEmpty
                then (p.drop (k + 1)).getLast?.toList
                else (p.drop (k + 1)).dropWhile isWsC))

inductive ParseError
  | YearNotFound
  | AuthorFormatError (frag : LC)
  | TitleOrPublisherMissing
deriving DecidableEq, Repr

structure Citation where
  authors : List (LC × LC)
  year : LC
  title : LC
  publisher : LC
deriving DecidableEq, Repr

/-- Lines 63-68: strip the fragment, strip its trailing dots, then match
`Last, First`; on failure report the processed fragment. -/
def parseFragment (p0 : LC) : Except ParseError (LC × LC) :=
  match matchAuthor (rstripDot (pstrip p0)) with
  | some a => Except.ok a
  | none => Except.error (ParseError.AuthorFormatError (rstripDot (pstrip p0)))

def parseFragments : List LC → Except ParseError (List (LC × LC))
  | [] => Except.ok []
  | p :: ps =>
    match parseFragment p with
    | Except.error e => Except.error e
    | Except.ok a =>
      match parseFragments ps with
      | Except.error e => Except.error e
      | Except.ok as => Except.ok (a :: as)

/-- Lines 58-61: split a chunk by the author-splitting regex; if that
yields a single part, fall back to splitting on `".,"`, dropping blank
pieces and re-appending a trailing period where missing. -/
def processChunk (chunk : LC) : List LC :=
  if (reSplitAuthors chunk).length == 1 then
    (((splitOnSub ('.' :: [',']) chunk).map pstrip).filter (fun p => !p.isEmpty)).map
      (fun p => if p.getLast? == some '.' then p else p ++ ['.'])
  else reSplitAuthors chunk

/-- Lines 53-68: normalize `", &"`, split author groups on `" & "`, strip
each chunk, split chunks into fragments and match each fragment. -/
def parseAuthors (before : LC) : Except ParseError (List (LC × LC)) :=
  parseFragments
    ((((splitOnSub (' ' :: '&' :: [' '])
          (replaceSub (',' :: ' ' :: ['&']) (' ' :: ['&']) before)).map pstrip).map
        processChunk).flatten)

/-- `before_year` on line 50: `s[:m_year.start()].strip().rstrip(".")`. -/
def beforeOf (s : LC) (i : Nat) : LC := rstripDot (pstrip (s.take i))

/-- `m_year.group(1)`: the four digits of the year. -/
def yearOf (s : LC) (i : Nat) : LC := (s.drop (i + 1)).take 4

/-- Lines 70-71: the post-year tail split on `"."` into non-empty stripped
pieces. -/
def piecesOf (s : LC) (i : Nat) : List LC :=
  ((splitOnSub ['.'] (pstrip (lstripDotSpace (pstrip (s.drop (i + 6)))))).map pstrip).filter
    (fun p => !p.isEmpty)

/-- The trailing three characters `ed.` of `[^)]*` content, matched
case-insensitively: used by the edition-marker regex on line 75. -/
def midEndsEd (mid : LC) : Bool :=
  match mid.reverse with
  | a :: d :: e :: _ => a == '.' && (d == 'd' || d == 'D') && (e == 'e' || e == 'E')
  | _ => false

/-- Does `\s*\([^)]*ed\.\)\s*$` (case-insensitive) match at the head of
`t`, extending to the end of the string?  The closing parenthesis of any
match is necessarily the first `)` after the `(`. -/
def edSuffixMatch (t : LC) : Bool :=
  match t.dropWhile isWsC with
  | [] => false
  | c :: u =>
    c == '(' &&
      (match findCharIdx ')' u with
       | none => false
       | some k => midEndsEd (u.take k) && (u.drop (k + 1)).all isWsC)

/-- `re.sub(r"\s*\([^)]*ed\.\)\s*$", "", piece, flags=re.I)` on line 75:
everything before the leftmost match position (or the whole string when
there is no match). -/
def edStripFrom : LC → LC
  | [] => []
  | c :: rest => if edSuffixMatch (c :: rest) then [] else c :: edStripFrom rest

/-- Lines 42-78: `parse_book_apa_like`. -/
def parse_book_apa_like (raw : LC) : Except ParseError Citation :=
  match findYearIdx (pyNormalize raw) with
  | none => Except.error ParseError.YearNotFound
  | some i =>
    match parseAuthors (beforeOf (pyNormalize raw) i) with
    | Except.error e => Except.error e
    | Except.ok as =>
      match piecesOf (pyNormalize raw) i with
      | p0 :: p1 :: _ =>
        Except.ok ⟨as, yearOf (pyNormalize raw) i, pstrip (edStripFrom p0), p1⟩
      | _ => Except.error ParseError.TitleOrPublisherMissing

/-- One `b:Source` entry of the bibliography document.  `refOrder` is the
text of the optional `b:RefOrder` child; a missing child is `none` and is
read back as the empty string by `findtext(..., "")`. -/
structure Source where
  tag : LC
  sourceType : LC
  authors : List (LC × LC)
  title : LC
  year : LC
  publisher : LC
  guid : LC
  refOrder : Option LC
deriving DecidableEq, Repr

/-- Lines 81-85: some entry's `Tag` text equals `tag` exactly. -/
def source_tag_exists (doc : List Source) (tag : LC) : Bool :=
  doc.any (fun src => src.tag == tag)

/-- Python `str.isdigit()` on ASCII text: non-empty and all digits. -/
def isdigitL (l : LC) : Bool := !l.isEmpty && l.all isDigitC

/-- Base-10 value of a digit string, as Python `int`. -/
def digitsVal (l : LC) : Nat := l.foldl (fun a c => a * 10 + (c.toNat - 48)) 0

/-- Lines 88-93: the list `vals` of numeric `RefOrder` values, in document
order; entries without a `RefOrder` or with non-numeric text are skipped. -/
def refVals (doc : List Source) : List Nat :=
  doc.filterMap (fun src =>
    let ro := src.refOrder.getD []
    if isdigitL ro then some (digitsVal ro) else none)

/-- Line 94: `max(vals) + 1 if vals else None`. -/
def next_reforder (doc : List Source) : Option Nat :=
  match refVals doc with
  | [] => none
  | v :: vs => some (vs.foldl max v + 1)

/-- ASCII uppercasing, as `str.upper()` on a UUID string. -/
def upperChar (c : Char) : Char :=
  if 'a' ≤ c ∧ c ≤ 'z' then Char.ofNat (c.toNat - 32) else c

/-- Lines 97-118: parse the citation and build the new `Source` element.
The freshly generated UUID is a parameter `g` (the source draws it from
`uuid.uuid4()`); it is stored uppercased and brace-delimited. -/
def build_book_source (tag ref g : LC) : Except ParseError Source :=
  match parse_book_apa_like ref with
  | Except.error e => Except.error e
  | Except.ok c =>
    Except.ok
      { tag := tag
        sourceType := ('B' :: 'o' :: 'o' :: ['k'])
        authors := c.authors
        title := c.title
        year := c.year
        publisher := c.publisher
        guid := Char.ofNat 123 :: (g.map upperChar) ++ [Char.ofNat 125]
        refOrder := none }

/-- Lines 153-166 of `main`: the document-level merge.  If the tag already
exists the document is left unchanged; otherwise the new entry is built,
given `next_reforder`'s value as its `RefOrder` text when present, and
appended as the last child of the root. -/
def merge (doc : List Source) (tag ref g : LC) : Except ParseError (List Source) :=
  if source_tag_exists doc tag then Except.ok doc
  else
    match build_book_source tag ref g with
    | Except.error e => Except.error e
    | Except.ok src =>
      match next_reforder doc with
      | some n => Except.ok (doc ++ [{ src with refOrder := some (Nat.toDigits 10 n) }])
      | none => Except.ok (doc ++ [src])

/-- The worked example citation from the spec and the script's usage text. -/
def simonRef : LC := ("Simon, H. A. (1996). The Sciences of the Artificial. MIT Press.").data

/-- A citation with two parenthesized four-digit groups: the second one
sits inside the title. -/
def twoYearRef : LC := ("Doe, J. (1996). Title (2000) more. Pub.").data

/-- A citation whose post-year tail has a single piece and whose author
segment does not match `Last, First`. -/
def noCommaRef : LC := ("NoComma (1996). OnlyTitle").data

/-- A citation accepted by the parser whose first author's `First` field
ends with a period. -/
def dotFirstRef : LC := ("A, B. .. Cx, D (1996). T. P.").data

/-- A two-author citation with the `", &"` join. -/
def twoAuthorRef : LC :=
  ("Simon, H. A., & Newell, A. (1972). Human Problem Solving. Prentice-Hall.").data

/-- A sample document entry with the given tag and `RefOrder` text. -/
def sampleEntry (tag : LC) (ro : Option LC) : Source :=
  { tag := tag
    sourceType := ('B' :: 'o' :: 'o' :: ['k'])
    authors := [(('X' :: []), ('Y' :: []))]
    title := ('T' :: [])
    year := ('2' :: '0' :: '0' :: ['0'])
    publisher := ('P' :: [])
    guid := ('G' :: [])
    refOrder := ro }

/-- A document whose numeric RefOrder values are 1, 3, 4. -/
def doc134 : List Source :=
  [sampleEntry ('a' :: []) (some ['1']),
   sampleEntry ('b' :: []) (some ['3']),
   sampleEntry ('c' :: []) (some ['4'])]

/-- A document none of whose entries carries a RefOrder. -/
def docNoRef : List Source :=
  [sampleEntry ('a' :: []) none, sampleEntry ('b' :: []) none]

/-- The text of a well-formed book citation
`<authors> (<y1y2y3y4>). <Title>. <Publisher>.` assembled from its parts:
used to state the specification's properties about well-formed inputs. -/
def bookCitation (A : LC) (y1 y2 y3 y4 : Char) (T P : LC) : LC :=
  (A ++ [' ']) ++ '(' :: y1 :: y2 :: y3 :: y4 :: ')' ::
    ('.' :: ' ' :: (T ++ '.' :: ' ' :: (P ++ ['.'])))

/-- The `Source` entry that `build_book_source` constructs for the worked
example, with UUID text `x`. -/
def simonEntry : Source :=
  { tag := ("Simon1996").data
    sourceType := ('B' :: 'o' :: 'o' :: ['k'])
    authors := [(("Simon").data, ("H. A").data)]
    title := ("The Sciences of the Artificial").data
    year := ("1996").data
    publisher := ("MIT Press").data
    guid := Char.ofNat 123 :: ("X").data ++ [Char.ofNat 125]
    refOrder := none }

/-! ### Basic lemmas about the character-level primitives -/

theorem length_dropWhile_le (p : Char → Bool) (l : LC) :
    (l.dropWhile p).length ≤ l.length := by
  induction l with
  | nil => simp
  | cons c t ih =>
    by_cases h : p c
    · simp [List.dropWhile_cons, h]; omega
    · simp [List.dropWhile_cons, h]

theorem dropWhile_cons_of_false {p : Char → Bool} {c : Char} (t : LC) (h : p c = false) :
    (c :: t).dropWhile p = c :: t := by
  simp [List.dropWhile_cons, h]

theorem head_false_of_dropWhile_eq_self {p : Char → Bool} {c : Char} {t : LC}
    (h : (c :: t).dropWhile p = c :: t) : p c = false := by
  by_cases hc : p c
  · exfalso
    rw [List.dropWhile_cons, if_pos hc] at h
    have := length_dropWhile_le p t
    have := congrArg List.length h
    simp at this
    omega
  · simpa using hc

theorem head?_dropWhile_false {p : Char → Bool} :
    ∀ {l : LC} {a : Char}, (l.dropWhile p).head? = some a → p a = false := by
  intro l
  induction l with
  | nil => intro a h; simp at h
  | cons c t ih =>
    intro a h
    by_cases hc : p c
    · rw [List.dropWhile_cons, if_pos hc] at h
      exact ih h
    · rw [List.dropWhile_cons, if_neg hc] at h
      have hc' : p c = false := by simpa using hc
      simp at h
      rwa [← h]

theorem mem_dropWhile {p : Char → Bool} :
    ∀ {l : LC} {a : Char}, a ∈ l.dropWhile p → a ∈ l := by
  intro l
  induction l with
  | nil => intro a h; simp at h
  | cons c t ih =>
    intro a h
    by_cases hc : p c
    · rw [List.dropWhile_cons, if_pos hc] at h
      exact List.mem_cons_of_mem _ (ih h)
    · rw [List.dropWhile_cons, if_neg hc] at h
      exact h

theorem stripRight_getLast?_false {p : Char → Bool} {l : LC} {a : Char}
    (h : (stripRight p l).getLast? = some a) : p a = false := by
  unfold stripRight at h
  rw [List.getLast?_reverse] at h
  exact head?_dropWhile_false h

theorem mem_stripRight {p : Char → Bool} {l : LC} {a : Char}
    (h : a ∈ stripRight p l) : a ∈ l := by
  unfold stripRight at h
  rw [List.mem_reverse] at h
  have := mem_dropWhile h
  rwa [List.mem_reverse] at this

theorem stripRight_snoc_true {p : Char → Bool} {c : Char} (l : LC) (h : p c = true) :
    stripRight p (l ++ [c]) = stripRight p l := by
  unfold stripRight
  rw [List.reverse_append]
  simp [List.dropWhile_cons, h]

theorem stripRight_snoc_false {p : Char → Bool} {c : Char} (l : LC) (h : p c = false) :
    stripRight p (l ++ [c]) = l ++ [c] := by
  unfold stripRight
  rw [List.reverse_append]
  simp [List.dropWhile_cons, h]

theorem stripRight_append {p : Char → Bool} {y : LC} (x : LC)
    (h : stripRight p y ≠ []) : stripRight p (x ++ y) = x ++ stripRight p y := by
  unfold stripRight at *
  rw [List.reverse_append, List.dropWhile_append]
  have hne : (y.reverse.dropWhile p).isEmpty = false := by
    rcases hv : y.reverse.dropWhile p with _ | ⟨c, t⟩
    · exfalso; apply h; rw [hv]; simp
    · simp
  rw [hne]
  simp

theorem stripRight_idem (p : Char → Bool) (l : LC) :
    stripRight p (stripRight p l) = stripRight p l := by
  unfold stripRight
  rw [List.reverse_reverse, List.dropWhile_idempotent]

theorem getLast?_false_of_stripRight_eq_self {p : Char → Bool} {l : LC} {a : Char}
    (hfix : stripRight p l = l) (h : l.getLast? = some a) : p a = false := by
  apply stripRight_getLast?_false (l := l)
  rw [hfix]; exact h

theorem stripRight_eq_nil_iff {p : Char → Bool} {l : LC} :
    stripRight p l = [] ↔ ∀ x ∈ l, p x = true := by
  unfold stripRight
  constructor
  · intro h x hx
    have : l.reverse.dropWhile p = [] := by
      have := congrArg List.reverse h
      simpa using this
    exact (List.dropWhile_eq_nil_iff).1 this x (by simpa using hx)
  · intro h
    have : l.reverse.dropWhile p = [] :=
      (List.dropWhile_eq_nil_iff).2 (fun x hx => h x (by simpa using hx))
    rw [this]; rfl

theorem pstrip_eq_self {l : LC} (h1 : stripLeft isWsC l = l) (h2 : stripRight isWsC l = l) :
    pstrip l = l := by
  unfold pstrip
  rw [h2, h1]

theorem pstrip_snoc_space {l : LC} (h1 : stripLeft isWsC l = l) (h2 : stripRight isWsC l = l) :
    pstrip (l ++ [' ']) = l := by
  unfold pstrip
  rw [stripRight_snoc_true l (by rfl), h2, h1]

theorem stripLeft_cons_of_false {p : Char → Bool} {c : Char} (t : LC) (h : p c = false) :
    stripLeft p (c :: t) = c :: t := dropWhile_cons_of_false t h

theorem head_false_of_stripLeft_eq_self {p : Char → Bool} {c : Char} {t : LC}
    (h : stripLeft p (c :: t) = c :: t) : p c = false :=
  head_false_of_dropWhile_eq_self h

theorem stripLeft_append_of_ne {p : Char → Bool} {x : LC} (y : LC)
    (hx : stripLeft p x = x) (hne : x ≠ []) : stripLeft p (x ++ y) = x ++ y := by
  rcases x with _ | ⟨c, t⟩
  · exact absurd rfl hne
  · have hc : p c = false := head_false_of_stripLeft_eq_self hx
    unfold stripLeft
    rw [List.cons_append, List.dropWhile_cons, hc]
    simp

/-! ### Occurrence search and splitting -/

theorem startsWith_iff {q : LC} : ∀ {l : LC}, startsWith q l = true ↔ ∃ t, l = q ++ t := by
  induction q with
  | nil => intro l; simp [startsWith]
  | cons c q ih =>
    intro l
    rcases l with _ | ⟨d, l⟩
    · simp [startsWith]
    · rw [startsWith]
      simp only [Bool.and_eq_true, beq_iff_eq]
      constructor
      · rintro ⟨rfl, h⟩
        obtain ⟨t, rfl⟩ := ih.1 h
        exact ⟨t, rfl⟩
      · rintro ⟨t, ht⟩
        simp only [List.cons_append, List.cons.injEq] at ht
        exact ⟨ht.1.symm, ih.2 ⟨t, ht.2⟩⟩

theorem startsWith_nil_false {q : LC} (h : q ≠ []) : startsWith q [] = false := by
  rcases q with _ | ⟨c, q⟩
  · exact absurd rfl h
  · rfl

theorem startsWith_length {q l : LC} (h : startsWith q l = true) : q.length ≤ l.length := by
  obtain ⟨t, rfl⟩ := startsWith_iff.1 h
  simp

theorem startsWith_append (q t : LC) : startsWith q (q ++ t) = true :=
  startsWith_iff.2 ⟨t, rfl⟩

theorem findSubIdx_eq_some_iff {sep : LC} (hsep : sep ≠ []) :
    ∀ {l : LC} {i : Nat}, findSubIdx sep l = some i ↔
      startsWith sep (l.drop i) = true ∧ ∀ j < i, startsWith sep (l.drop j) = false := by
  intro l
  induction l with
  | nil =>
    intro i
    rw [findSubIdx]
    simp only [List.isEmpty_iff]
    rw [if_neg hsep]
    simp [List.drop_nil, startsWith_nil_false hsep]
  | cons c rest ih =>
    intro i
    rw [findSubIdx]
    by_cases hst : startsWith sep (c :: rest) = true
    · rw [if_pos hst]
      constructor
      · intro h
        have : i = 0 := by simpa using h.symm
        subst this
        exact ⟨hst, by omega⟩
      · intro ⟨h1, h2⟩
        rcases i with _ | i
        · rfl
        · exact absurd hst (by simpa using h2 0 (by omega))
    · rw [if_neg hst]
      have hst' : startsWith sep (c :: rest) = false := by simpa using hst
      constructor
      · intro h
        simp only [Option.map_eq_some'] at h
        obtain ⟨i', hi', rfl⟩ := h
        obtain ⟨h1, h2⟩ := ih.1 hi'
        refine ⟨by simpa using h1, ?_⟩
        intro j hj
        rcases j with _ | j
        · simpa using hst'
        · simpa using h2 j (by omega)
      · intro ⟨h1, h2⟩
        rcases i with _ | i
        · exact absurd (by simpa using h1) (by simpa using hst')
        · have : findSubIdx sep rest = some i := by
            apply ih.2
            refine ⟨by simpa using h1, ?_⟩
            intro j hj
            simpa using h2 (j + 1) (by omega)
          rw [this]; rfl

theorem findSubIdx_eq_none_iff {sep : LC} (hsep : sep ≠ []) :
    ∀ {l : LC}, findSubIdx sep l = none ↔ ∀ j, startsWith sep (l.drop j) = false := by
  intro l
  induction l with
  | nil =>
    rw [findSubIdx]
    simp only [List.isEmpty_iff]
    rw [if_neg hsep]
    simp [List.drop_nil, startsWith_nil_false hsep]
  | cons c rest ih =>
    rw [findSubIdx]
    by_cases hst : startsWith sep (c :: rest) = true
    · rw [if_pos hst]
      constructor
      · intro h; cases h
      · intro h; exact absurd hst (by simpa using h 0)
    · rw [if_neg hst]
      constructor
      · intro h j
        have : findSubIdx sep rest = none := by
          rcases hv : findSubIdx sep rest with _ | i
          · rfl
          · rw [hv] at h; cases h
        rcases j with _ | j
        · simpa using hst
        · simpa using ih.1 this j
      · intro h
        have : findSubIdx sep rest = none := ih.2 (fun j => by simpa using h (j + 1))
        rw [this]; rfl

theorem findSubIdx_some_bound {sep l : LC} {i : Nat} (hsep : sep ≠ [])
    (h : findSubIdx sep l = some i) : i + sep.length ≤ l.length := by
  obtain ⟨h1, _⟩ := (findSubIdx_eq_some_iff hsep).1 h
  have hlen := startsWith_length h1
  rw [List.length_drop] at hlen
  have hi : i < l.length := by
    by_contra hge
    have : l.drop i = [] := List.drop_eq_nil_of_le (by omega)
    rw [this, startsWith_nil_false hsep] at h1
    cases h1
  omega

theorem findSubIdx_none_of_not_mem {sep l : LC} {c : Char}
    (hc : c ∈ sep) (hl : c ∉ l) : findSubIdx sep l = none := by
  have hsep : sep ≠ [] := by rintro rfl; simp at hc
  rw [findSubIdx_eq_none_iff hsep]
  intro j
  by_contra h
  have h' : startsWith sep (l.drop j) = true := by simpa using h
  obtain ⟨t, ht⟩ := startsWith_iff.1 h'
  apply hl
  apply List.mem_of_mem_drop (n := j)
  rw [ht]
  exact List.mem_append_left _ hc

theorem splitFuel_congr {sep : LC} (hsep : sep ≠ []) :
    ∀ (n f1 f2 : Nat) (l : LC), l.length ≤ n → l.length < f1 → l.length < f2 →
      splitFuel sep f1 l = splitFuel sep f2 l := by
  intro n
  induction n with
  | zero =>
    intro f1 f2 l hn h1 h2
    have hl : l = [] := List.length_eq_zero.1 (by omega)
    subst hl
    rcases f1 with _ | f1
    · omega
    rcases f2 with _ | f2
    · omega
    rw [splitFuel, splitFuel]
    have : findSubIdx sep [] = none := by
      rw [findSubIdx]
      simp only [List.isEmpty_iff]
      rw [if_neg hsep]
    rw [this]
  | succ n ih =>
    intro f1 f2 l hn h1 h2
    rcases f1 with _ | f1
    · omega
    rcases f2 with _ | f2
    · omega
    rcases hv : findSubIdx sep l with _ | i
    · simp only [splitFuel, hv]
    · have hbound := findSubIdx_some_bound hsep hv
      have hslen : 1 ≤ sep.length := by
        rcases sep with _ | ⟨c, s⟩
        · exact absurd rfl hsep
        · simp
      have hdrop : (l.drop (i + sep.length)).length = l.length - (i + sep.length) :=
        List.length_drop _ _
      simp only [splitFuel, hv]
      rw [ih f1 f2 (l.drop (i + sep.length)) (by omega) (by omega) (by omega)]

theorem splitOnSub_of_none {sep l : LC} (h : findSubIdx sep l = none) :
    splitOnSub sep l = [l] := by
  unfold splitOnSub
  rw [splitFuel, h]

theorem splitFuel_succ_some {sep l : LC} {i : Nat} (f : Nat)
    (h : findSubIdx sep l = some i) :
    splitFuel sep (f + 1) l = l.take i :: splitFuel sep f (l.drop (i + sep.length)) := by
  simp only [splitFuel, h]

theorem splitOnSub_of_some {sep l : LC} {i : Nat} (hsep : sep ≠ [])
    (h : findSubIdx sep l = some i) :
    splitOnSub sep l = l.take i :: splitOnSub sep (l.drop (i + sep.length)) := by
  have hbound := findSubIdx_some_bound hsep h
  have hslen : 1 ≤ sep.length := by
    rcases sep with _ | ⟨c, s⟩
    · exact absurd rfl hsep
    · simp
  unfold splitOnSub
  rw [splitFuel_succ_some l.length h]
  congr 1
  apply splitFuel_congr hsep (l.drop (i + sep.length)).length
  · omega
  · rw [List.length_drop]; omega
  · rw [List.length_drop]; omega

theorem replaceFuel_congr {pat rep : LC} (hpat : pat ≠ []) :
    ∀ (n f1 f2 : Nat) (l : LC), l.length ≤ n → l.length < f1 → l.length < f2 →
      replaceFuel pat rep f1 l = replaceFuel pat rep f2 l := by
  intro n
  induction n with
  | zero =>
    intro f1 f2 l hn h1 h2
    have hl : l = [] := List.length_eq_zero.1 (by omega)
    subst hl
    rcases f1 with _ | f1
    · omega
    rcases f2 with _ | f2
    · omega
    rw [replaceFuel, replaceFuel]
    have : findSubIdx pat [] = none := by
      rw [findSubIdx]
      simp only [List.isEmpty_iff]
      rw [if_neg hpat]
    rw [this]
  | succ n ih =>
    intro f1 f2 l hn h1 h2
    rcases f1 with _ | f1
    · omega
    rcases f2 with _ | f2
    · omega
    rcases hv : findSubIdx pat l with _ | i
    · simp only [replaceFuel, hv]
    · have hbound := findSubIdx_some_bound hpat hv
      have hslen : 1 ≤ pat.length := by
        rcases pat with _ | ⟨c, s⟩
        · exact absurd rfl hpat
        · simp
      have hdrop : (l.drop (i + pat.length)).length = l.length - (i + pat.length) :=
        List.length_drop _ _
      simp only [replaceFuel, hv]
      rw [ih f1 f2 (l.drop (i + pat.length)) (by omega) (by omega) (by omega)]

theorem replaceSub_of_none {pat rep l : LC} (h : findSubIdx pat l = none) :
    replaceSub pat rep l = l := by
  unfold replaceSub
  rw [replaceFuel, h]

theorem replaceFuel_succ_some {pat rep l : LC} {i : Nat} (f : Nat)
    (h : findSubIdx pat l = some i) :
    replaceFuel pat rep (f + 1) l =
      l.take i ++ rep ++ replaceFuel pat rep f (l.drop (i + pat.length)) := by
  simp only [replaceFuel, h]

theorem replaceSub_of_some {pat rep l : LC} {i : Nat} (hpat : pat ≠ [])
    (h : findSubIdx pat l = some i) :
    replaceSub pat rep l = l.take i ++ rep ++ replaceSub pat rep (l.drop (i + pat.length)) := by
  have hbound := findSubIdx_some_bound hpat h
  have hslen : 1 ≤ pat.length := by
    rcases pat with _ | ⟨c, s⟩
    · exact absurd rfl hpat
    · simp
  unfold replaceSub
  rw [replaceFuel_succ_some l.length h]
  congr 1
  apply replaceFuel_congr hpat (l.drop (i + pat.length)).length
  · omega
  · rw [List.length_drop]; omega
  · rw [List.length_drop]; omega

/-! ### The author-splitting regex scanner -/

theorem length_takeWhile_le (p : Char → Bool) (l : LC) :
    (l.takeWhile p).length ≤ l.length := by
  induction l with
  | nil => simp
  | cons c t ih =>
    by_cases h : p c
    · simp [List.takeWhile_cons, h]; omega
    · simp [List.takeWhile_cons, h]

theorem matchDotWs_some_elim {l : LC} {r : Nat} (h : matchDotWs l = some r) :
    ∃ c rest, l = c :: rest ∧ c = '.' ∧ r = (rest.takeWhile isWsC).length ∧ r ≠ 0 ∧
      lookaheadOk (rest.drop r) = true := by
  rcases l with _ | ⟨c, rest⟩
  · simp [matchDotWs] at h
  · rw [matchDotWs] at h
    by_cases hc : c == '.'
    · rw [if_pos hc] at h
      by_cases hr : (rest.takeWhile isWsC).length = 0
      · rw [if_pos hr] at h; cases h
      · rw [if_neg hr] at h
        by_cases hl : lookaheadOk (rest.drop (rest.takeWhile isWsC).length) = true
        · rw [if_pos hl] at h
          have : r = (rest.takeWhile isWsC).length := by
            have := h.symm
            simpa using this
          subst this
          exact ⟨c, rest, rfl, by simpa using hc, rfl, hr, hl⟩
        · rw [if_neg hl] at h; cases h
    · rw [if_neg hc] at h; cases h

theorem findSplitPos_some_bound :
    ∀ {l : LC} {i r : Nat}, findSplitPos l = some (i, r) → 1 ≤ r ∧ i + 1 + r ≤ l.length := by
  intro l
  induction l with
  | nil => intro i r h; simp [findSplitPos] at h
  | cons c rest ih =>
    intro i r h
    rw [findSplitPos] at h
    rcases hm : matchDotWs (c :: rest) with _ | r'
    · rw [hm] at h
      simp only [Option.map_eq_some'] at h
      obtain ⟨⟨i', r''⟩, hp, hpr⟩ := h
      obtain ⟨h1, h2⟩ := ih hp
      cases hpr
      simp only [List.length_cons]
      constructor
      · exact h1
      · omega
    · rw [hm] at h
      obtain ⟨c', rest', heq, hdot, hr, hne, hla⟩ := matchDotWs_some_elim hm
      obtain ⟨hc2, hr2⟩ := List.cons.inj heq
      subst hr2
      have hi : i = 0 ∧ r = r' := by
        constructor <;> · have := h.symm; simp at this; omega
      obtain ⟨rfl, rfl⟩ := hi
      have := length_takeWhile_le isWsC rest
      simp only [List.length_cons]
      omega

theorem reSplitFuel_congr :
    ∀ (n f1 f2 : Nat) (l : LC), l.length ≤ n → l.length < f1 → l.length < f2 →
      reSplitFuel f1 l = reSplitFuel f2 l := by
  intro n
  induction n with
  | zero =>
    intro f1 f2 l hn h1 h2
    have hl : l = [] := List.length_eq_zero.1 (by omega)
    subst hl
    rcases f1 with _ | f1
    · omega
    rcases f2 with _ | f2
    · omega
    simp only [reSplitFuel, findSplitPos]
  | succ n ih =>
    intro f1 f2 l hn h1 h2
    rcases f1 with _ | f1
    · omega
    rcases f2 with _ | f2
    · omega
    rcases hv : findSplitPos l with _ | ⟨i, r⟩
    · simp only [reSplitFuel, hv]
    · obtain ⟨hr, hb⟩ := findSplitPos_some_bound hv
      have hdrop : (l.drop (i + 1 + r)).length = l.length - (i + 1 + r) :=
        List.length_drop _ _
      simp only [reSplitFuel, hv]
      rw [ih f1 f2 (l.drop (i + 1 + r)) (by omega) (by omega) (by omega)]

theorem reSplitAuthors_of_none {l : LC} (h : findSplitPos l = none) :
    reSplitAuthors l = [l] := by
  unfold reSplitAuthors
  simp only [reSplitFuel, h]

theorem reSplitFuel_succ_some {l : LC} {i r : Nat} (f : Nat) (h : findSplitPos l = some (i, r)) :
    reSplitFuel (f + 1) l = l.take i :: reSplitFuel f (l.drop (i + 1 + r)) := by
  simp only [reSplitFuel, h]

theorem reSplitAuthors_of_some {l : LC} {i r : Nat} (h : findSplitPos l = some (i, r)) :
    reSplitAuthors l = l.take i :: reSplitAuthors (l.drop (i + 1 + r)) := by
  obtain ⟨hr, hb⟩ := findSplitPos_some_bound h
  unfold reSplitAuthors
  rw [reSplitFuel_succ_some l.length h]
  congr 1
  apply reSplitFuel_congr (l.drop (i + 1 + r)).length
  · omega
  · rw [List.length_drop]; omega
  · rw [List.length_drop]; omega

/-! ### The year scanner -/

theorem startsWithYear_ex {t : LC} : startsWithYear t = true ↔
    ∃ y1 y2 y3 y4 rest, t = '(' :: y1 :: y2 :: y3 :: y4 :: ')' :: rest ∧
      isDigitC y1 = true ∧ isDigitC y2 = true ∧ isDigitC y3 = true ∧ isDigitC y4 = true := by
  rcases t with _ | ⟨x0, _ | ⟨x1, _ | ⟨x2, _ | ⟨x3, _ | ⟨x4, _ | ⟨x5, rest⟩⟩⟩⟩⟩⟩ <;>
    simp [startsWithYear] <;> aesop

theorem startsWithYear_cons_false {c : Char} (t : LC) (hc : c ≠ '(') :
    startsWithYear (c :: t) = false := by
  by_contra h
  have h' : startsWithYear (c :: t) = true := by simpa using h
  obtain ⟨y1, y2, y3, y4, rest, heq, _⟩ := startsWithYear_ex.1 h'
  exact hc (by injection heq)

theorem findYearIdx_eq_some_iff :
    ∀ {l : LC} {i : Nat}, findYearIdx l = some i ↔
      startsWithYear (l.drop i) = true ∧ ∀ j < i, startsWithYear (l.drop j) = false := by
  intro l
  induction l with
  | nil =>
    intro i
    rw [findYearIdx]
    simp [List.drop_nil, startsWithYear]
  | cons c rest ih =>
    intro i
    rw [findYearIdx]
    by_cases hst : startsWithYear (c :: rest) = true
    · rw [if_pos hst]
      constructor
      · intro h
        have : i = 0 := by simpa using h.symm
        subst this
        exact ⟨hst, by omega⟩
      · intro ⟨h1, h2⟩
        rcases i with _ | i
        · rfl
        · exact absurd hst (by simpa using h2 0 (by omega))
    · rw [if_neg hst]
      have hst' : startsWithYear (c :: rest) = false := by simpa using hst
      constructor
      · intro h
        simp only [Option.map_eq_some'] at h
        obtain ⟨i', hi', rfl⟩ := h
        obtain ⟨h1, h2⟩ := ih.1 hi'
        refine ⟨by simpa using h1, ?_⟩
        intro j hj
        rcases j with _ | j
        · simpa using hst'
        · simpa using h2 j (by omega)
      · intro ⟨h1, h2⟩
        rcases i with _ | i
        · exact absurd (by simpa using h1) (by simpa using hst')
        · have : findYearIdx rest = some i := by
            apply ih.2
            refine ⟨by simpa using h1, ?_⟩
            intro j hj
            simpa using h2 (j + 1) (by omega)
          rw [this]; rfl

theorem findYearIdx_eq_none_iff :
    ∀ {l : LC}, findYearIdx l = none ↔ ∀ j, startsWithYear (l.drop j) = false := by
  intro l
  induction l with
  | nil =>
    rw [findYearIdx]
    simp [List.drop_nil, startsWithYear]
  | cons c rest ih =>
    rw [findYearIdx]
    by_cases hst : startsWithYear (c :: rest) = true
    · rw [if_pos hst]
      constructor
      · intro h; cases h
      · intro h; exact absurd hst (by simpa using h 0)
    · rw [if_neg hst]
      constructor
      · intro h j
        have : findYearIdx rest = none := by
          rcases hv : findYearIdx rest with _ | i
          · rfl
          · rw [hv] at h; cases h
        rcases j with _ | j
        · simpa using hst
        · simpa using ih.1 this j
      · intro h
        have : findYearIdx rest = none := ih.2 (fun j => by simpa using h (j + 1))
        rw [this]; rfl

theorem findYearIdx_append {A R : LC} {y1 y2 y3 y4 : Char}
    (hA : '(' ∉ A) (h1 : isDigitC y1 = true) (h2 : isDigitC y2 = true)
    (h3 : isDigitC y3 = true) (h4 : isDigitC y4 = true) :
    findYearIdx (A ++ '(' :: y1 :: y2 :: y3 :: y4 :: ')' :: R) = some A.length := by
  rw [findYearIdx_eq_some_iff]
  constructor
  · rw [List.drop_left]
    exact startsWithYear_ex.2 ⟨y1, y2, y3, y4, R, rfl, h1, h2, h3, h4⟩
  · intro j hj
    have hd : (A ++ '(' :: y1 :: y2 :: y3 :: y4 :: ')' :: R).drop j =
        A.drop j ++ '(' :: y1 :: y2 :: y3 :: y4 :: ')' :: R := List.drop_append_of_le_length (by omega)
    rw [hd]
    rcases hAd : A.drop j with _ | ⟨c, t⟩
    · exfalso
      have := congrArg List.length hAd
      rw [List.length_drop] at this
      simp at this
      omega
    · rw [List.cons_append]
      apply startsWithYear_cons_false
      intro hc
      subst hc
      exact hA (List.mem_of_mem_drop (n := j) (by rw [hAd]; exact List.mem_cons_self _ _))

/-! ### Whitespace normalization cannot create new non-whitespace patterns -/

theorem collapseWs_ws_head {c : Char} (hc : isWsC c = true) :
    ∀ t : LC, ∃ t2, collapseWs (c :: t) = ' ' :: t2 := by
  intro t
  induction t generalizing c with
  | nil => exact ⟨[], by simp [collapseWs, hc]⟩
  | cons d rest ih =>
    by_cases hd : isWsC d
    · obtain ⟨t2, ht2⟩ := ih hd
      exact ⟨t2, by rw [collapseWs, if_pos (by simp [hc, hd]), ht2]⟩
    · refine ⟨collapseWs (d :: rest), ?_⟩
      rw [collapseWs, if_neg (by simp [hd]), if_pos hc]

theorem collapseWs_prefix_transfer :
    ∀ (u q t : LC), (∀ a ∈ q, isWsC a = false) → collapseWs u = q ++ t →
      ∃ t2, u = q ++ t2 := by
  have H : ∀ (n : Nat) (u : LC), u.length ≤ n → ∀ (q t : LC),
      (∀ a ∈ q, isWsC a = false) → collapseWs u = q ++ t → ∃ t2, u = q ++ t2 := by
    intro n
    induction n with
    | zero =>
      intro u hu q t hq h
      have : u = [] := List.length_eq_zero.1 (by omega)
      subst this
      rw [collapseWs] at h
      have : q = [] := by
        rcases q with _ | ⟨a, q⟩
        · rfl
        · exact absurd h.symm (by simp)
      subst this
      exact ⟨[], rfl⟩
    | succ n ih =>
      intro u hu q t hq h
      rcases u with _ | ⟨c, u'⟩
      · rw [collapseWs] at h
        have : q = [] := by
          rcases q with _ | ⟨a, q⟩
          · rfl
          · exact absurd h.symm (by simp)
        subst this
        exact ⟨[], rfl⟩
      rcases u' with _ | ⟨d, rest⟩
      · rw [collapseWs] at h
        rcases q with _ | ⟨a, q'⟩
        · exact ⟨[c], rfl⟩
        · by_cases hc : isWsC c
          · rw [if_pos hc] at h
            have ha : a = ' ' := by
              have := congrArg (fun l => l.head?) h
              simpa using this.symm
            have := hq a (List.mem_cons_self _ _)
            rw [ha] at this
            simp [isWsC] at this
          · rw [if_neg hc] at h
            have ha : a = c ∧ q' ++ t = [] := by
              constructor
              · have := congrArg (fun l => l.head?) h
                simpa using this.symm
              · have := congrArg (fun l => l.tail) h
                simpa using this.symm
            have hq' : q' = [] := by
              rcases List.append_eq_nil.1 ha.2 with ⟨h1, _⟩
              exact h1
            subst hq'
            rw [ha.1]
            exact ⟨[], rfl⟩
      · by_cases hcd : isWsC c && isWsC d
        · rw [collapseWs, if_pos hcd] at h
          rcases q with _ | ⟨a, q'⟩
          · exact ⟨c :: d :: rest, rfl⟩
          · exfalso
            have hd : isWsC d = true := by
              have hcd' := hcd
              simp only [Bool.and_eq_true] at hcd'
              exact hcd'.2
            obtain ⟨t2, ht2⟩ := collapseWs_ws_head hd rest
            rw [ht2] at h
            have ha : a = ' ' := by
              have := congrArg (fun l => l.head?) h
              simpa using this.symm
            have := hq a (List.mem_cons_self _ _)
            rw [ha] at this
            simp [isWsC] at this
        · rw [collapseWs, if_neg hcd] at h
          rcases q with _ | ⟨a, q'⟩
          · exact ⟨c :: d :: rest, rfl⟩
          · have hsplit : (if isWsC c then ' ' else c) = a ∧ collapseWs (d :: rest) = q' ++ t := by
              constructor
              · have := congrArg (fun l => l.head?) h
                simpa using this
              · have := congrArg (fun l => l.tail) h
                simpa using this
            have hc : isWsC c = false := by
              by_contra hcc
              have hcc' : isWsC c = true := by simpa using hcc
              rw [if_pos hcc'] at hsplit
              have := hq a (List.mem_cons_self _ _)
              rw [← hsplit.1] at this
              simp [isWsC] at this
            rw [if_neg (by simp [hc])] at hsplit
            obtain ⟨t2, ht2⟩ := ih (d :: rest) (by simp only [List.length_cons] at hu ⊢; omega) q' t
              (fun x hx => hq x (List.mem_cons_of_mem _ hx)) hsplit.2
            refine ⟨t2, ?_⟩
            rw [← hsplit.1, ht2]
            rfl
  intro u q t hq h
  exact H u.length u (le_refl _) q t hq h

theorem collapseWs_infix_transfer :
    ∀ (u q a b : LC), q ≠ [] → (∀ x ∈ q, isWsC x = false) → collapseWs u = a ++ q ++ b →
      ∃ a2 b2, u = a2 ++ q ++ b2 := by
  have H : ∀ (n : Nat) (u : LC), u.length ≤ n → ∀ (q a b : LC),
      q ≠ [] → (∀ x ∈ q, isWsC x = false) → collapseWs u = a ++ q ++ b →
      ∃ a2 b2, u = a2 ++ q ++ b2 := by
    intro n
    induction n with
    | zero =>
      intro u hu q a b hq0 hq h
      have : u = [] := List.length_eq_zero.1 (by omega)
      subst this
      rw [collapseWs] at h
      rcases q with _ | ⟨x, q'⟩
      · exact absurd rfl hq0
      · exfalso
        have := congrArg List.length h
        simp at this
        omega
    | succ n ih =>
      intro u hu q a b hq0 hq h
      rcases a with _ | ⟨e, a'⟩
      · obtain ⟨t2, ht2⟩ := collapseWs_prefix_transfer u q b hq (by simpa using h)
        exact ⟨[], t2, by simpa using ht2⟩
      · rcases u with _ | ⟨c, u'⟩
        · rw [collapseWs] at h
          exfalso
          have := congrArg List.length h
          rcases q with _ | ⟨x, q'⟩
          · exact absurd rfl hq0
          · simp at this
        rcases u' with _ | ⟨d, rest⟩
        · rw [collapseWs] at h
          exfalso
          rcases q with _ | ⟨x, q'⟩
          · exact absurd rfl hq0
          · by_cases hc : isWsC c
            · rw [if_pos hc] at h
              have := congrArg List.length h
              simp at this
            · rw [if_neg hc] at h
              have := congrArg List.length h
              simp at this
        · by_cases hcd : isWsC c && isWsC d
          · rw [collapseWs, if_pos hcd] at h
            obtain ⟨a2, b2, hab⟩ := ih (d :: rest) (by simp only [List.length_cons] at hu ⊢; omega) q (e :: a') b hq0 hq h
            exact ⟨c :: a2, b2, by rw [hab]; rfl⟩
          · rw [collapseWs, if_neg hcd] at h
            have hsplit : collapseWs (d :: rest) = a' ++ q ++ b := by
              have := congrArg (fun l => l.tail) h
              simpa using this
            obtain ⟨a2, b2, hab⟩ := ih (d :: rest) (by simp only [List.length_cons] at hu ⊢; omega) q a' b hq0 hq hsplit
            exact ⟨c :: a2, b2, by rw [hab]; rfl⟩
  intro u q a b hq0 hq h
  exact H u.length u (le_refl _) q a b hq0 hq h

theorem stripLeft_decomp (p : Char → Bool) (l : LC) : ∃ x, l = x ++ stripLeft p l :=
  ⟨l.takeWhile p, by rw [stripLeft, List.takeWhile_append_dropWhile]⟩

theorem stripRight_decomp (p : Char → Bool) (l : LC) : ∃ y, l = stripRight p l ++ y := by
  refine ⟨(l.reverse.takeWhile p).reverse, ?_⟩
  unfold stripRight
  have := congrArg List.reverse (List.takeWhile_append_dropWhile (p := p) (l := l.reverse))
  rw [List.reverse_append, List.reverse_reverse] at this
  exact this.symm

theorem pstrip_decomp (l : LC) : ∃ x y, l = x ++ pstrip l ++ y := by
  obtain ⟨y, hy⟩ := stripRight_decomp isWsC l
  obtain ⟨x, hx⟩ := stripLeft_decomp isWsC (stripRight isWsC l)
  refine ⟨x, y, ?_⟩
  rw [pstrip]
  conv_lhs => rw [hy, hx]

theorem isWsC_false_of_isDigitC {c : Char} (h : isDigitC c = true) : isWsC c = false := by
  by_contra hw
  have hw' : isWsC c = true := by simpa using hw
  rw [isWsC] at hw'
  simp only [Bool.or_eq_true, beq_iff_eq] at hw'
  rcases hw' with ((((h1 | h1) | h1) | h1) | h1) | h1 <;> subst h1 <;>
    exact absurd h (by decide)

/-- Normalization cannot create a `(YYYY)` pattern that the raw string
does not already contain. -/
theorem findYearIdx_none_normalize {raw : LC} (h : findYearIdx raw = none) :
    findYearIdx (pyNormalize raw) = none := by
  rcases hv : findYearIdx (pyNormalize raw) with _ | i
  · rfl
  exfalso
  obtain ⟨h1, _⟩ := findYearIdx_eq_some_iff.1 hv
  obtain ⟨y1, y2, y3, y4, rest, heq, hd1, hd2, hd3, hd4⟩ := startsWithYear_ex.1 h1
  have hdecomp : pyNormalize raw =
      (pyNormalize raw).take i ++ ('(' :: y1 :: y2 :: y3 :: y4 :: [')']) ++ rest := by
    conv_lhs => rw [← List.take_append_drop i (pyNormalize raw)]
    rw [heq]
    simp
  have hq : ∀ x ∈ ('(' :: y1 :: y2 :: y3 :: y4 :: [')']), isWsC x = false := by
    intro x hx
    rcases List.mem_cons.1 hx with rfl | hx
    · rfl
    rcases List.mem_cons.1 hx with rfl | hx
    · exact isWsC_false_of_isDigitC hd1
    rcases List.mem_cons.1 hx with rfl | hx
    · exact isWsC_false_of_isDigitC hd2
    rcases List.mem_cons.1 hx with rfl | hx
    · exact isWsC_false_of_isDigitC hd3
    rcases List.mem_cons.1 hx with rfl | hx
    · exact isWsC_false_of_isDigitC hd4
    rcases List.mem_cons.1 hx with rfl | hx
    · rfl
    · simp at hx
  obtain ⟨a2, b2, hab⟩ := collapseWs_infix_transfer (pstrip raw) _ _ _ (by simp) hq hdecomp
  obtain ⟨x, y, hxy⟩ := pstrip_decomp raw
  have hraw : raw = (x ++ a2) ++ ('(' :: y1 :: y2 :: y3 :: y4 :: [')']) ++ (b2 ++ y) := by
    rw [hxy, hab]
    simp
  have : startsWithYear (raw.drop (x ++ a2).length) = true := by
    rw [hraw, List.append_assoc, List.drop_left]
    exact startsWithYear_ex.2 ⟨y1, y2, y3, y4, b2 ++ y, by simp, hd1, hd2, hd3, hd4⟩
  rw [findYearIdx_eq_none_iff] at h
  rw [h ((x ++ a2).length)] at this
  cases this

/-! ### The author pipeline on well-formed segments -/

theorem findCharIdx_append_first {c : Char} {L : LC} (R : LC) (hL : c ∉ L) :
    findCharIdx c (L ++ c :: R) = some L.length := by
  induction L with
  | nil => simp [findCharIdx]
  | cons d L ih =>
    have hd : d ≠ c := by
      intro h
      exact hL (h ▸ List.mem_cons_self _ _)
    rw [List.cons_append, findCharIdx, if_neg (by simpa using hd),
      ih (fun hm => hL (List.mem_cons_of_mem _ hm))]
    rfl

theorem getLast?_append_of_ne {x y : LC} (hy : y ≠ []) : (x ++ y).getLast? = y.getLast? := by
  rw [List.getLast?_append]
  rcases hg : y.getLast? with _ | a
  · exact absurd (List.getLast?_eq_none_iff.1 hg) hy
  · rfl

theorem matchAuthor_structured {L F : LC}
    (hLc : ',' ∉ L) (hLl : stripLeft isWsC L = L) (hLr : stripRight isWsC L = L)
    (hLne : L ≠ []) (hF : F ≠ []) (hFl : stripLeft isWsC F = F)
    (hFr : stripRight isWsC F = F) :
    matchAuthor (L ++ ',' :: ' ' :: F) = some (L, F) := by
  have hk : L.length ≠ 0 := fun h => hLne (List.length_eq_zero.1 h)
  have htake : (L ++ ',' :: ' ' :: F).take L.length = L := List.take_left _ _
  have hdrop : (L ++ ',' :: ' ' :: F).drop (L.length + 1) = ' ' :: F := by
    have h2 : L ++ ',' :: ' ' :: F = (L ++ [',']) ++ (' ' :: F) := by simp
    rw [h2, List.drop_left' (by simp)]
  have hdw : (' ' :: F).dropWhile isWsC = F := by
    rw [List.dropWhile_cons, if_pos (by decide)]
    exact hFl
  have hFne : F.isEmpty = false := by
    rcases F with _ | ⟨a, F⟩
    · exact absurd rfl hF
    · rfl
  simp only [matchAuthor, findCharIdx_append_first (' ' :: F) hLc, if_neg hk, htake, hdrop,
    hdw, hFne, List.isEmpty_cons, Bool.false_eq_true, if_false]
  rw [pstrip_eq_self hLl hLr, pstrip_eq_self hFl hFr]

theorem processChunk_fallback {chunk : LC} (hsp : findSplitPos chunk = none)
    (hdc : findSubIdx ('.' :: [',']) chunk = none) (hne : chunk ≠ [])
    (hps : pstrip chunk = chunk) :
    processChunk chunk =
      [if chunk.getLast? == some '.' then chunk else chunk ++ ['.']] := by
  have hemp : chunk.isEmpty = false := by
    rcases chunk with _ | ⟨a, t⟩
    · exact absurd rfl hne
    · rfl
  unfold processChunk
  rw [reSplitAuthors_of_none hsp, splitOnSub_of_none hdc]
  simp [hps, hemp]

theorem parseFragments_singleton {p : LC} {a : LC × LC}
    (h : parseFragment p = Except.ok a) : parseFragments [p] = Except.ok [a] := by
  rw [parseFragments, h, parseFragments]

theorem parseFragments_pair {p q : LC} {a b : LC × LC}
    (hp : parseFragment p = Except.ok a) (hq : parseFragment q = Except.ok b) :
    parseFragments [p, q] = Except.ok [a, b] := by
  rw [parseFragments, hp, parseFragments, hq, parseFragments]

theorem rstripDot_append {x y : LC} (hy : rstripDot y ≠ []) :
    rstripDot (x ++ y) = x ++ rstripDot y := stripRight_append x hy

theorem rstripDot_snoc (l : LC) : rstripDot (l ++ ['.']) = rstripDot l :=
  stripRight_snoc_true l (by rfl)

theorem rstripDot_idem (l : LC) : rstripDot (rstripDot l) = rstripDot l :=
  stripRight_idem _ l

/-- The whole author-segment pipeline on a well-formed single-author
segment `L ++ ", " ++ F1` whose first-name block `F1` carries no trailing
periods. -/
theorem parseAuthors_single {L F1 : LC}
    (hLc : ',' ∉ L) (hLl : stripLeft isWsC L = L) (hLr : stripRight isWsC L = L)
    (hLne : L ≠ [])
    (hF1ne : F1 ≠ []) (hF1l : stripLeft isWsC F1 = F1) (hF1r : stripRight isWsC F1 = F1)
    (hF1d : rstripDot F1 = F1)
    (hamp : '&' ∉ L ++ ',' :: ' ' :: F1)
    (hsp : findSplitPos (L ++ ',' :: ' ' :: F1) = none)
    (hdc : findSubIdx ('.' :: [',']) (L ++ ',' :: ' ' :: F1) = none) :
    parseAuthors (L ++ ',' :: ' ' :: F1) = Except.ok [(L, F1)] := by
  have hBne : (L ++ ',' :: ' ' :: F1) ≠ [] := List.append_ne_nil_of_left_ne_nil hLne _
  have hBl : stripLeft isWsC (L ++ ',' :: ' ' :: F1) = L ++ ',' :: ' ' :: F1 :=
    stripLeft_append_of_ne (',' :: ' ' :: F1) hLl hLne
  have hBr : stripRight isWsC (L ++ ',' :: ' ' :: F1) = L ++ ',' :: ' ' :: F1 := by
    have h2 : L ++ ',' :: ' ' :: F1 = (L ++ [',', ' ']) ++ F1 := by simp
    rw [h2, stripRight_append (p := isWsC) (y := F1) (L ++ [',', ' '])
      (by rw [hF1r]; exact hF1ne), hF1r]
  have hpsB : pstrip (L ++ ',' :: ' ' :: F1) = L ++ ',' :: ' ' :: F1 := pstrip_eq_self hBl hBr
  obtain ⟨a, ha⟩ : ∃ a, F1.getLast? = some a := by
    rcases hg : F1.getLast? with _ | a
    · exact absurd (List.getLast?_eq_none_iff.1 hg) hF1ne
    · exact ⟨a, rfl⟩
  have hF1d' : stripRight (fun c => c == '.') F1 = F1 := hF1d
  have hadot' : a ≠ '.' := by
    have h := getLast?_false_of_stripRight_eq_self hF1d' ha
    simpa using h
  have hBlast : (L ++ ',' :: ' ' :: F1).getLast? = some a := by
    have h2 : L ++ ',' :: ' ' :: F1 = (L ++ [',', ' ']) ++ F1 := by simp
    rw [h2, getLast?_append_of_ne hF1ne, ha]
  have hchunk : processChunk (L ++ ',' :: ' ' :: F1) = [(L ++ ',' :: ' ' :: F1) ++ ['.']] := by
    rw [processChunk_fallback hsp hdc hBne hpsB, hBlast]
    have hne' : (some a == some ('.' : Char)) = false := by
      rw [beq_eq_false_iff_ne]
      intro hcontra
      exact hadot' (by injection hcontra)
    rw [hne']
    simp
  have hfrag : parseFragment ((L ++ ',' :: ' ' :: F1) ++ ['.']) = Except.ok (L, F1) := by
    have hps' : pstrip ((L ++ ',' :: ' ' :: F1) ++ ['.']) = (L ++ ',' :: ' ' :: F1) ++ ['.'] :=
      pstrip_eq_self (stripLeft_append_of_ne ['.'] hBl hBne)
        (stripRight_snoc_false _ (by decide))
    have hrd : rstripDot ((L ++ ',' :: ' ' :: F1) ++ ['.']) = L ++ ',' :: ' ' :: F1 := by
      rw [rstripDot_snoc]
      have h2 : L ++ ',' :: ' ' :: F1 = (L ++ [',', ' ']) ++ F1 := by simp
      rw [h2, rstripDot_append (y := F1) (by rw [hF1d]; exact hF1ne), hF1d]
    simp only [parseFragment, hps', hrd,
      matchAuthor_structured hLc hLl hLr hLne hF1ne hF1l hF1r]
  simp only [parseAuthors]
  rw [replaceSub_of_none (findSubIdx_none_of_not_mem (by simp) hamp)]
  rw [splitOnSub_of_none (findSubIdx_none_of_not_mem (by simp) hamp)]
  simp only [List.map_cons, List.map_nil, hpsB, hchunk, List.flatten_cons, List.flatten_nil,
    List.append_nil]
  exact parseFragments_singleton hfrag

/-! ### Parsing a structurally well-formed citation -/

theorem findSubIdx_char_append {c : Char} {x : LC} (R : LC) (hx : c ∉ x) :
    findSubIdx [c] (x ++ c :: R) = some x.length := by
  rw [findSubIdx_eq_some_iff (by simp)]
  constructor
  · rw [List.drop_left]
    have h2 : (c :: R) = [c] ++ R := rfl
    rw [h2]
    exact startsWith_append [c] R
  · intro j hj
    have hd : (x ++ c :: R).drop j = x.drop j ++ c :: R :=
      List.drop_append_of_le_length (by omega)
    rw [hd]
    rcases hAd : x.drop j with _ | ⟨d, t⟩
    · exfalso
      have := congrArg List.length hAd
      rw [List.length_drop] at this
      simp at this
      omega
    · rw [List.cons_append]
      have hdc : d ≠ c := by
        intro h
        exact hx (List.mem_of_mem_drop (n := j) (by rw [hAd]; exact h ▸ List.mem_cons_self _ _))
      show startsWith [c] (d :: (t ++ c :: R)) = false
      rw [startsWith]
      simp only [startsWith, Bool.and_true]
      rw [beq_eq_false_iff_ne]
      exact fun h => hdc h.symm

theorem parse_book_structured {A T P : LC} {y1 y2 y3 y4 : Char} {as : List (LC × LC)}
    (hnorm : pyNormalize (bookCitation A y1 y2 y3 y4 T P) = bookCitation A y1 y2 y3 y4 T P)
    (hApar : '(' ∉ A ++ [' '])
    (hy1 : isDigitC y1 = true) (hy2 : isDigitC y2 = true)
    (hy3 : isDigitC y3 = true) (hy4 : isDigitC y4 = true)
    (hauth : parseAuthors (rstripDot (pstrip (A ++ [' ']))) = Except.ok as)
    (hTd : '.' ∉ T) (hTne : T ≠ []) (hTl : stripLeft isWsC T = T)
    (hTr : stripRight isWsC T = T)
    (hPd : '.' ∉ P) (hPne : P ≠ []) (hPl : stripLeft isWsC P = P)
    (hPr : stripRight isWsC P = P) :
    parse_book_apa_like (bookCitation A y1 y2 y3 y4 T P) =
      Except.ok ⟨as, [y1, y2, y3, y4], pstrip (edStripFrom T), P⟩ := by
  have hfind : findYearIdx (bookCitation A y1 y2 y3 y4 T P) = some (A ++ [' ']).length := by
    unfold bookCitation
    exact findYearIdx_append hApar hy1 hy2 hy3 hy4
  have hbefore : beforeOf (bookCitation A y1 y2 y3 y4 T P) (A ++ [' ']).length =
      rstripDot (pstrip (A ++ [' '])) := by
    unfold beforeOf bookCitation
    rw [List.take_left]
  have hyear : yearOf (bookCitation A y1 y2 y3 y4 T P) (A ++ [' ']).length =
      [y1, y2, y3, y4] := by
    unfold yearOf bookCitation
    have h2 : (A ++ [' ']) ++ '(' :: y1 :: y2 :: y3 :: y4 :: ')' ::
        ('.' :: ' ' :: (T ++ '.' :: ' ' :: (P ++ ['.']))) =
        ((A ++ [' ']) ++ ['(']) ++ (y1 :: y2 :: y3 :: y4 :: ')' ::
          ('.' :: ' ' :: (T ++ '.' :: ' ' :: (P ++ ['.'])))) := by simp
    rw [h2, List.drop_left' (by simp)]
    rfl
  have hdrop6 : (bookCitation A y1 y2 y3 y4 T P).drop ((A ++ [' ']).length + 6) =
      '.' :: ' ' :: (T ++ '.' :: ' ' :: (P ++ ['.'])) := by
    unfold bookCitation
    have h2 : (A ++ [' ']) ++ '(' :: y1 :: y2 :: y3 :: y4 :: ')' ::
        ('.' :: ' ' :: (T ++ '.' :: ' ' :: (P ++ ['.']))) =
        ((A ++ [' ']) ++ ['(', y1, y2, y3, y4, ')']) ++
          ('.' :: ' ' :: (T ++ '.' :: ' ' :: (P ++ ['.']))) := by simp
    rw [h2, List.drop_left' (by simp)]
  obtain ⟨t0, T', hT0⟩ : ∃ t0 T', T = t0 :: T' := by
    rcases T with _ | ⟨t0, T'⟩
    · exact absurd rfl hTne
    · exact ⟨t0, T', rfl⟩
  have ht0w : isWsC t0 = false := by
    rw [hT0] at hTl
    exact head_false_of_dropWhile_eq_self hTl
  have ht0d : t0 ≠ '.' := by
    intro h
    exact hTd (by rw [hT0, h]; exact List.mem_cons_self _ _)
  have ht0s : (t0 == '.' || t0 == ' ') = false := by
    have h1 : (t0 == '.') = false := beq_eq_false_iff_ne.2 ht0d
    have h2 : (t0 == ' ') = false := by
      rw [beq_eq_false_iff_ne]
      intro h
      rw [h] at ht0w
      exact absurd ht0w (by decide)
    rw [h1, h2]
    rfl
  have hXr : stripRight isWsC (T ++ '.' :: ' ' :: (P ++ ['.'])) =
      T ++ '.' :: ' ' :: (P ++ ['.']) := by
    have h2 : T ++ '.' :: ' ' :: (P ++ ['.']) = (T ++ '.' :: ' ' :: P) ++ ['.'] := by simp
    rw [h2, stripRight_snoc_false _ (by decide)]
  have hXl : stripLeft isWsC (T ++ '.' :: ' ' :: (P ++ ['.'])) =
      T ++ '.' :: ' ' :: (P ++ ['.']) := stripLeft_append_of_ne _ hTl hTne
  have hps1 : pstrip ('.' :: ' ' :: (T ++ '.' :: ' ' :: (P ++ ['.']))) =
      '.' :: ' ' :: (T ++ '.' :: ' ' :: (P ++ ['.'])) := by
    apply pstrip_eq_self
    · exact dropWhile_cons_of_false _ (by decide)
    · have h2 : '.' :: ' ' :: (T ++ '.' :: ' ' :: (P ++ ['.'])) =
          ('.' :: ' ' :: (T ++ '.' :: ' ' :: P)) ++ ['.'] := by simp
      rw [h2, stripRight_snoc_false _ (by decide)]
  have hlds : lstripDotSpace ('.' :: ' ' :: (T ++ '.' :: ' ' :: (P ++ ['.']))) =
      T ++ '.' :: ' ' :: (P ++ ['.']) := by
    unfold lstripDotSpace stripLeft
    rw [List.dropWhile_cons, if_pos (by decide), List.dropWhile_cons, if_pos (by decide)]
    rw [hT0, List.cons_append, List.dropWhile_cons, ht0s]
    simp
  have hps2 : pstrip (T ++ '.' :: ' ' :: (P ++ ['.'])) = T ++ '.' :: ' ' :: (P ++ ['.']) :=
    pstrip_eq_self hXl hXr
  have hsplit1 : findSubIdx ['.'] (T ++ '.' :: ' ' :: (P ++ ['.'])) = some T.length :=
    findSubIdx_char_append _ hTd
  have hdropT : (T ++ '.' :: ' ' :: (P ++ ['.'])).drop (T.length + 1) = ' ' :: (P ++ ['.']) := by
    have h2 : T ++ '.' :: ' ' :: (P ++ ['.']) = (T ++ ['.']) ++ (' ' :: (P ++ ['.'])) := by simp
    rw [h2, List.drop_left' (by simp)]
  have hsplit2 : findSubIdx ['.'] (' ' :: (P ++ ['.'])) = some (' ' :: P).length := by
    have h2 : ' ' :: (P ++ ['.']) = (' ' :: P) ++ '.' :: [] := by simp
    rw [h2]
    apply findSubIdx_char_append
    intro hm
    rcases List.mem_cons.1 hm with h | h
    · exact absurd h.symm (by decide)
    · exact hPd h
  have htakeP : (' ' :: (P ++ ['.'])).take ((' ' :: P).length) = ' ' :: P := by
    have h2 : ' ' :: (P ++ ['.']) = (' ' :: P) ++ ['.'] := by simp
    rw [h2, List.take_left]
  have hdropP : (' ' :: (P ++ ['.'])).drop ((' ' :: P).length + 1) = [] := by
    apply List.drop_eq_nil_of_le
    simp
  have hsplits : splitOnSub ['.'] (T ++ '.' :: ' ' :: (P ++ ['.'])) = [T, ' ' :: P, []] := by
    rw [splitOnSub_of_some (by simp) hsplit1, List.take_left]
    simp only [List.length_singleton]
    rw [hdropT, splitOnSub_of_some (by simp) hsplit2, htakeP]
    simp only [List.length_singleton]
    rw [hdropP, splitOnSub_of_none (by rfl)]
  have hpsP : pstrip (' ' :: P) = P := by
    unfold pstrip
    have h2 : (' ' :: P) = [' '] ++ P := rfl
    rw [h2, stripRight_append _ (by rw [hPr]; exact hPne), hPr]
    unfold stripLeft
    rw [List.cons_append, List.nil_append, List.dropWhile_cons, if_pos (by decide)]
    exact hPl
  have hTemp : T.isEmpty = false := by rw [hT0]; rfl
  have hPemp : P.isEmpty = false := by
    rcases P with _ | ⟨a, t⟩
    · exact absurd rfl hPne
    · rfl
  have hpieces : piecesOf (bookCitation A y1 y2 y3 y4 T P) ((A ++ [' ']).length) = [T, P] := by
    unfold piecesOf
    rw [hdrop6, hps1, hlds, hps2, hsplits]
    rw [List.map_cons, List.map_cons, List.map_cons, List.map_nil]
    rw [pstrip_eq_self hTl hTr, hpsP]
    have hpnil : pstrip ([] : LC) = [] := rfl
    rw [hpnil]
    simp [List.filter_cons, hTemp, hPemp]
  simp only [parse_book_apa_like, hnorm, hfind, hbefore, hauth, hpieces, hyear]

/-! ### Claim C1 -/

/-- C1, counterexample: parsing the Simon citation succeeds, but the first
name is stored as `H. A` - the trailing period of the initials block is
stripped - so the claimed author list `[(Simon, H. A.)]` is not produced. -/
theorem C1_simon_first_name_counterexample :
    parse_book_apa_like simonRef =
      Except.ok ⟨[(("Simon").data, ("H. A").data)], ("1996").data,
        ("The Sciences of the Artificial").data, ("MIT Press").data⟩ ∧
    (parse_book_apa_like simonRef).toOption.map Citation.authors ≠
      some [(("Simon").data, ("H. A.").data)] := by
  constructor
  · rfl
  · decide

/-- C1 (amended): for every well-formed single-author citation
`Last, First (YYYY). Title. Publisher.`, parsing succeeds and yields
exactly one author whose last name is `Last` and whose first name is
`First` with its trailing periods stripped (so `H. A.` is stored as
`H. A`), together with the given year, title and publisher.  The
hypotheses spell out well-formedness: the string is already
whitespace-normalized, the year digits are the only parenthesized
four-digit group (no `(` occurs in the names), the names contain no `&`,
no `".,"` and no in-name split point for the multi-author heuristic, and
title and publisher are non-empty, period-free, space-trimmed, with no
trailing edition marker on the title. -/
theorem C1_single_author_parse (L F : LC) (y1 y2 y3 y4 : Char) (T P : LC)
    (hnorm : pyNormalize (bookCitation (L ++ ',' :: ' ' :: F) y1 y2 y3 y4 T P) =
      bookCitation (L ++ ',' :: ' ' :: F) y1 y2 y3 y4 T P)
    (hy1 : isDigitC y1 = true) (hy2 : isDigitC y2 = true)
    (hy3 : isDigitC y3 = true) (hy4 : isDigitC y4 = true)
    (hLc : ',' ∉ L) (hLl : stripLeft isWsC L = L) (hLr : stripRight isWsC L = L)
    (hLne : L ≠ []) (hLp : '(' ∉ L) (hLa : '&' ∉ L)
    (hFp : '(' ∉ F) (hFa : '&' ∉ F) (hFr : stripRight isWsC F = F)
    (hFdne : rstripDot F ≠ [])
    (hFdl : stripLeft isWsC (rstripDot F) = rstripDot F)
    (hFdr : stripRight isWsC (rstripDot F) = rstripDot F)
    (hsp : findSplitPos (L ++ ',' :: ' ' :: rstripDot F) = none)
    (hdc : findSubIdx ('.' :: [',']) (L ++ ',' :: ' ' :: rstripDot F) = none)
    (hTd : '.' ∉ T) (hTne : T ≠ []) (hTl : stripLeft isWsC T = T)
    (hTr : stripRight isWsC T = T) (hTe : edStripFrom T = T)
    (hPd : '.' ∉ P) (hPne : P ≠ []) (hPl : stripLeft isWsC P = P)
    (hPr : stripRight isWsC P = P) :
    parse_book_apa_like (bookCitation (L ++ ',' :: ' ' :: F) y1 y2 y3 y4 T P) =
      Except.ok ⟨[(L, rstripDot F)], [y1, y2, y3, y4], T, P⟩ := by
  have hFne : F ≠ [] := by
    intro h
    rw [h] at hFdne
    exact hFdne rfl
  have hApar : '(' ∉ (L ++ ',' :: ' ' :: F) ++ [' '] := by
    intro hm
    simp only [List.mem_append, List.mem_cons, List.mem_singleton] at hm
    rcases hm with (h | h | h | h) | h
    · exact hLp h
    · exact absurd h (by decide)
    · exact absurd h (by decide)
    · exact hFp h
    · exact absurd h (by decide)
  have hAl : stripLeft isWsC (L ++ ',' :: ' ' :: F) = L ++ ',' :: ' ' :: F :=
    stripLeft_append_of_ne _ hLl hLne
  have hAr : stripRight isWsC (L ++ ',' :: ' ' :: F) = L ++ ',' :: ' ' :: F := by
    have h2 : L ++ ',' :: ' ' :: F = (L ++ [',', ' ']) ++ F := by simp
    rw [h2, stripRight_append (p := isWsC) (y := F) (L ++ [',', ' '])
      (by rw [hFr]; exact hFne), hFr]
  have hps : pstrip ((L ++ ',' :: ' ' :: F) ++ [' ']) = L ++ ',' :: ' ' :: F :=
    pstrip_snoc_space hAl hAr
  have hrd : rstripDot (L ++ ',' :: ' ' :: F) = L ++ ',' :: ' ' :: rstripDot F := by
    have h2 : L ++ ',' :: ' ' :: F = (L ++ [',', ' ']) ++ F := by simp
    have h3 : L ++ ',' :: ' ' :: rstripDot F = (L ++ [',', ' ']) ++ rstripDot F := by simp
    rw [h2, h3, rstripDot_append hFdne]
  have hamp : '&' ∉ L ++ ',' :: ' ' :: rstripDot F := by
    intro hm
    simp only [List.mem_append, List.mem_cons] at hm
    rcases hm with h | h | h | h
    · exact hLa h
    · exact absurd h (by decide)
    · exact absurd h (by decide)
    · exact hFa (mem_stripRight h)
  have hauth : parseAuthors (rstripDot (pstrip ((L ++ ',' :: ' ' :: F) ++ [' ']))) =
      Except.ok [(L, rstripDot F)] := by
    rw [hps, hrd]
    exact parseAuthors_single hLc hLl hLr hLne hFdne hFdl hFdr (rstripDot_idem F)
      hamp hsp hdc
  have h := parse_book_structured hnorm hApar hy1 hy2 hy3 hy4 hauth hTd hTne hTl hTr
    hPd hPne hPl hPr
  rw [h, hTe, pstrip_eq_self hTl hTr]

/-- C1, witness: the Simon citation instantiates the amended claim; its
`bookCitation` assembly is literally the spec's example string. -/
theorem C1_single_author_parse_witness :
    parse_book_apa_like (bookCitation (("Simon").data ++ ',' :: ' ' :: ("H. A.").data)
        '1' '9' '9' '6' ("The Sciences of the Artificial").data ("MIT Press").data) =
      Except.ok ⟨[(("Simon").data, rstripDot ("H. A.").data)], ['1', '9', '9', '6'],
        ("The Sciences of the Artificial").data, ("MIT Press").data⟩ ∧
    bookCitation (("Simon").data ++ ',' :: ' ' :: ("H. A.").data) '1' '9' '9' '6'
        ("The Sciences of the Artificial").data ("MIT Press").data = simonRef := by
  constructor
  · exact C1_single_author_parse ("Simon").data ("H. A.").data '1' '9' '9' '6'
      ("The Sciences of the Artificial").data ("MIT Press").data
      (by decide) (by decide) (by decide) (by decide) (by decide) (by decide) (by decide)
      (by decide) (by decide) (by decide) (by decide) (by decide) (by decide) (by decide)
      (by decide) (by decide) (by decide) (by decide) (by decide) (by decide) (by decide)
      (by decide) (by decide) (by decide) (by decide) (by decide) (by decide) (by decide)
  · decide

/-! ### The bibliography merger -/

theorem build_book_source_fields {tag ref g : LC} {e : Source}
    (h : build_book_source tag ref g = Except.ok e) : e.tag = tag ∧ e.refOrder = none := by
  unfold build_book_source at h
  cases hv : parse_book_apa_like ref with
  | error err => rw [hv] at h; cases h
  | ok c =>
    rw [hv] at h
    injection h with h
    subst h
    exact ⟨rfl, rfl⟩

theorem merge_of_exists {doc : List Source} {tag ref g : LC}
    (h : source_tag_exists doc tag = true) : merge doc tag ref g = Except.ok doc := by
  unfold merge
  rw [if_pos h]

theorem merge_of_new {doc : List Source} {tag ref g : LC} {e : Source}
    (hex : source_tag_exists doc tag = false)
    (hb : build_book_source tag ref g = Except.ok e) :
    merge doc tag ref g = Except.ok
      (doc ++ [{ e with refOrder := (next_reforder doc).map (fun n => Nat.toDigits 10 n) }]) := by
  unfold merge
  rw [hex]
  simp only [Bool.false_eq_true, if_false, hb]
  rcases hnro : next_reforder doc with _ | n
  · simp only [Option.map_none']
    have hro : e.refOrder = none := (build_book_source_fields hb).2
    have he : { e with refOrder := none } = e := by
      obtain ⟨t, st, au, ti, ye, pu, gu, ro⟩ := e
      simp only at hro
      rw [hro]
    rw [he]
  · simp only [Option.map_some']

theorem merge_error_of_parse_error {doc : List Source} {tag ref g : LC} {err : ParseError}
    (hex : source_tag_exists doc tag = false)
    (hb : build_book_source tag ref g = Except.error err) :
    merge doc tag ref g = Except.error err := by
  unfold merge
  rw [hex]
  simp only [Bool.false_eq_true, if_false, hb]

theorem source_tag_exists_append {doc : List Source} {e : Source} {tag : LC}
    (h : e.tag = tag) : source_tag_exists (doc ++ [e]) tag = true := by
  unfold source_tag_exists
  rw [List.any_append]
  have hbeq : (e.tag == tag) = true := by rw [h]; exact beq_self_eq_true tag
  simp [List.any_cons, hbeq]

theorem foldl_max_ub {vs : List Nat} : ∀ {v : Nat}, ∀ x ∈ v :: vs, x ≤ vs.foldl max v := by
  induction vs with
  | nil =>
    intro v x hx
    simp at hx
    simp [hx]
  | cons w vs ih =>
    intro v x hx
    rw [List.foldl_cons]
    rcases List.mem_cons.1 hx with rfl | hx
    · exact le_trans (le_max_left x w) (ih _ (List.mem_cons_self _ _))
    rcases List.mem_cons.1 hx with rfl | hx
    · exact le_trans (le_max_right v x) (ih _ (List.mem_cons_self _ _))
    · exact ih _ (List.mem_cons_of_mem _ hx)

theorem foldl_max_mem {vs : List Nat} : ∀ {v : Nat}, vs.foldl max v ∈ v :: vs := by
  induction vs with
  | nil => intro v; simp
  | cons w vs ih =>
    intro v
    rw [List.foldl_cons]
    have h := ih (v := max v w)
    rcases List.mem_cons.1 h with h1 | h1
    · rcases max_choice v w with h2 | h2 <;> rw [h1, h2]
      · exact List.mem_cons_self _ _
      · exact List.mem_cons_of_mem _ (List.mem_cons_self _ _)
    · exact List.mem_cons_of_mem _ (List.mem_cons_of_mem _ h1)

/-! ### Claims C2, C3, C8 -/

/-- C2: if the tag already exists, `merge` returns the document unchanged;
merging is idempotent (a second merge with the same tag on a first merge's
output changes nothing, so the entry count is unchanged); and merge
preserves uniqueness of tags. -/
theorem C2_duplicate_tag_short_circuit :
    (∀ (doc : List Source) (tag ref g : LC), source_tag_exists doc tag = true →
      merge doc tag ref g = Except.ok doc) ∧
    (∀ (doc : List Source) (tag ref g : LC) (doc' : List Source),
      merge doc tag ref g = Except.ok doc' →
      ∀ ref2 g2, merge doc' tag ref2 g2 = Except.ok doc') ∧
    (∀ (doc : List Source) (tag ref g : LC) (doc' : List Source),
      (doc.map Source.tag).Nodup → merge doc tag ref g = Except.ok doc' →
      (doc'.map Source.tag).Nodup) := by
  have hnotmem : ∀ (doc : List Source) (tag : LC), source_tag_exists doc tag = false →
      tag ∉ doc.map Source.tag := by
    intro doc tag hex hm
    obtain ⟨s, hs, hst⟩ := List.mem_map.1 hm
    have : source_tag_exists doc tag = true := by
      unfold source_tag_exists
      rw [List.any_eq_true]
      exact ⟨s, hs, by rw [hst]; exact beq_self_eq_true tag⟩
    rw [this] at hex
    cases hex
  refine ⟨fun doc tag ref g h => merge_of_exists h, ?_, ?_⟩
  · intro doc tag ref g doc' h ref2 g2
    cases hex : source_tag_exists doc tag with
    | true =>
      rw [merge_of_exists hex] at h
      injection h with h
      subst h
      exact merge_of_exists hex
    | false =>
      cases hb : build_book_source tag ref g with
      | error err =>
        rw [merge_error_of_parse_error hex hb] at h
        cases h
      | ok e =>
        rw [merge_of_new hex hb] at h
        injection h with h
        subst h
        apply merge_of_exists
        apply source_tag_exists_append
        exact (build_book_source_fields hb).1
  · intro doc tag ref g doc' hnd h
    cases hex : source_tag_exists doc tag with
    | true =>
      rw [merge_of_exists hex] at h
      injection h with h
      subst h
      exact hnd
    | false =>
      cases hb : build_book_source tag ref g with
      | error err =>
        rw [merge_error_of_parse_error hex hb] at h
        cases h
      | ok e =>
        rw [merge_of_new hex hb] at h
        injection h with h
        subst h
        rw [List.map_append, List.map_cons, List.map_nil]
        rw [List.nodup_append]
        refine ⟨hnd, by simp, ?_⟩
        intro x hx hx2
        have htag : ({ e with refOrder :=
            (next_reforder doc).map (fun n => Nat.toDigits 10 n) } : Source).tag = tag :=
          (build_book_source_fields hb).1
        simp only [List.mem_cons, List.not_mem_nil, or_false] at hx2
        rw [hx2, htag] at hx
        exact hnotmem doc tag hex hx

/-- C2, witness: merging tag `a` into a document that already has an entry
tagged `a` returns the document unchanged. -/
theorem C2_duplicate_tag_short_circuit_witness :
    source_tag_exists doc134 ['a'] = true ∧
    merge doc134 ['a'] simonRef (("x").data) = Except.ok doc134 :=
  ⟨by decide, C2_duplicate_tag_short_circuit.1 doc134 ['a'] simonRef (("x").data) (by decide)⟩

/-- C3: `next_reforder` returns the maximum of the numeric RefOrder values
plus one when at least one entry carries a numeric RefOrder (entries
without one are skipped by `refVals`), and `none` otherwise; a newly
merged entry receives exactly that value as its RefOrder text, or no
RefOrder at all.  Concretely, RefOrders 1, 3, 4 give the new entry
RefOrder 5, and a document without RefOrders gives it none. -/
theorem C3_next_reforder_max :
    (∀ doc, refVals doc = [] → next_reforder doc = none) ∧
    (∀ doc v, next_reforder doc = some v ↔
      ∃ m, m ∈ refVals doc ∧ (∀ x ∈ refVals doc, x ≤ m) ∧ v = m + 1) ∧
    (∀ (doc : List Source) (tag ref g : LC) (e : Source),
      source_tag_exists doc tag = false → build_book_source tag ref g = Except.ok e →
      merge doc tag ref g = Except.ok (doc ++
        [{ e with refOrder := (next_reforder doc).map (fun n => Nat.toDigits 10 n) }])) ∧
    next_reforder doc134 = some 5 ∧
    next_reforder docNoRef = none ∧
    (merge doc134 (("Simon1996").data) simonRef (("x").data)).toOption.map
        (fun d => d.map Source.refOrder) =
      some [some ['1'], some ['3'], some ['4'], some ['5']] ∧
    (merge docNoRef (("Simon1996").data) simonRef (("x").data)).toOption.map
        (fun d => d.map Source.refOrder) =
      some [none, none, none] := by
  refine ⟨?_, ?_, fun doc tag ref g e hex hb => merge_of_new hex hb,
    by decide, by decide, by decide, by decide⟩
  · intro doc h
    unfold next_reforder
    rw [h]
  · intro doc v
    constructor
    · intro h
      unfold next_reforder at h
      rcases hv : refVals doc with _ | ⟨v0, vs⟩
      · rw [hv] at h; cases h
      · rw [hv] at h
        injection h with h
        exact ⟨vs.foldl max v0, foldl_max_mem, foldl_max_ub, h.symm⟩
    · rintro ⟨m, hm, hub, rfl⟩
      unfold next_reforder
      rcases hv : refVals doc with _ | ⟨v0, vs⟩
      · rw [hv] at hm; cases hm
      · have h1 : vs.foldl max v0 ≤ m := hub _ (by rw [hv]; exact foldl_max_mem)
        have h2 : m ≤ vs.foldl max v0 := foldl_max_ub _ (by rw [← hv]; exact hm)
        show some (vs.foldl max v0 + 1) = some (m + 1)
        rw [Nat.le_antisymm h1 h2]

/-- C3, witness: a document with no numeric RefOrder values yields none. -/
theorem C3_next_reforder_max_witness :
    refVals docNoRef = [] ∧ next_reforder docNoRef = none :=
  ⟨by decide, C3_next_reforder_max.1 docNoRef (by decide)⟩

/-- C8: when the tag is absent and the citation parses, `merge` appends
exactly one new entry as the last element; every pre-existing entry is
kept unchanged, in its original position before the new entry, and the
length grows by exactly one. -/
theorem C8_merge_appends_last :
    ∀ (doc : List Source) (tag ref g : LC) (e : Source),
      source_tag_exists doc tag = false → build_book_source tag ref g = Except.ok e →
      merge doc tag ref g = Except.ok (doc ++
        [{ e with refOrder := (next_reforder doc).map (fun n => Nat.toDigits 10 n) }]) ∧
      (doc ++ [{ e with refOrder :=
        (next_reforder doc).map (fun n => Nat.toDigits 10 n) }]).take doc.length = doc ∧
      (doc ++ [{ e with refOrder :=
        (next_reforder doc).map (fun n => Nat.toDigits 10 n) }]).length = doc.length + 1 ∧
      (∀ i (hi : i < doc.length),
        (doc ++ [{ e with refOrder :=
          (next_reforder doc).map (fun n => Nat.toDigits 10 n) }])[i]? = doc[i]?) := by
  intro doc tag ref g e hex hb
  refine ⟨merge_of_new hex hb, List.take_left _ _, by simp, ?_⟩
  intro i hi
  rw [List.getElem?_append, if_pos hi]

/-- C8, witness: merging the Simon citation into `docNoRef` appends the
built entry (with no RefOrder) after the two existing entries. -/
theorem C8_merge_appends_last_witness :
    source_tag_exists docNoRef (("Simon1996").data) = false ∧
    build_book_source (("Simon1996").data) simonRef (("x").data) = Except.ok simonEntry ∧
    merge docNoRef (("Simon1996").data) simonRef (("x").data) =
      Except.ok (docNoRef ++
        [{ simonEntry with refOrder := (next_reforder docNoRef).map (fun n => Nat.toDigits 10 n) }]) :=
  ⟨by decide, by rfl,
    (C8_merge_appends_last docNoRef (("Simon1996").data) simonRef (("x").data) simonEntry
      (by decide) (by rfl)).1⟩

/-! ### Claims C4 and C9 -/

/-- C4: a citation containing no parenthesized four-digit year fails with
`YearNotFound`, and with no other error - the year check is the first
check the parser performs.  The second conjunct pins down the meaning of
"contains no `(YYYY)` substring" for the executable scanner. -/
theorem C4_year_not_found :
    (∀ raw : LC, findYearIdx raw = none →
      parse_book_apa_like raw = Except.error ParseError.YearNotFound) ∧
    (∀ raw : LC, findYearIdx raw = none ↔
      ¬ ∃ (a b : LC) (y1 y2 y3 y4 : Char),
        raw = a ++ '(' :: y1 :: y2 :: y3 :: y4 :: ')' :: b ∧
        isDigitC y1 = true ∧ isDigitC y2 = true ∧ isDigitC y3 = true ∧ isDigitC y4 = true) := by
  constructor
  · intro raw h
    simp only [parse_book_apa_like, findYearIdx_none_normalize h]
  · intro raw
    constructor
    · rintro h ⟨a, b, y1, y2, y3, y4, heq, hd1, hd2, hd3, hd4⟩
      have hsw : startsWithYear (raw.drop a.length) = true := by
        rw [heq, List.drop_left]
        exact startsWithYear_ex.2 ⟨y1, y2, y3, y4, b, rfl, hd1, hd2, hd3, hd4⟩
      rw [findYearIdx_eq_none_iff] at h
      rw [h a.length] at hsw
      cases hsw
    · intro h
      rcases hv : findYearIdx raw with _ | i
      · rfl
      · exfalso
        apply h
        obtain ⟨h1, _⟩ := findYearIdx_eq_some_iff.1 hv
        obtain ⟨y1, y2, y3, y4, rest, heq, hd1, hd2, hd3, hd4⟩ := startsWithYear_ex.1 h1
        refine ⟨raw.take i, rest, y1, y2, y3, y4, ?_, hd1, hd2, hd3, hd4⟩
        conv_lhs => rw [← List.take_append_drop i raw]
        rw [heq]

/-- C4, witness: a citation without any `(YYYY)` group fails with
`YearNotFound`. -/
theorem C4_year_not_found_witness :
    findYearIdx (("no year here").data) = none ∧
    parse_book_apa_like (("no year here").data) = Except.error ParseError.YearNotFound :=
  ⟨by decide, C4_year_not_found.1 (("no year here").data) (by decide)⟩

/-- C9: `findYearIdx` returns the start of the leftmost `(YYYY)` match
(no earlier position matches), the parser splits the citation at exactly
that position (everything before it is the author segment, everything
after it the tail), and on a citation with a second `(2000)` group inside
the title the leftmost `(1996)` is used as the year while `(2000)` stays
in the title. -/
theorem C9_leftmost_year :
    (∀ (l : LC) (i : Nat), findYearIdx l = some i →
      startsWithYear (l.drop i) = true ∧ ∀ j < i, startsWithYear (l.drop j) = false) ∧
    (∀ (raw : LC) (i : Nat), findYearIdx (pyNormalize raw) = some i →
      parse_book_apa_like raw =
        (match parseAuthors (beforeOf (pyNormalize raw) i) with
         | Except.error e => Except.error e
         | Except.ok as =>
           match piecesOf (pyNormalize raw) i with
           | p0 :: p1 :: _ =>
             Except.ok ⟨as, yearOf (pyNormalize raw) i, pstrip (edStripFrom p0), p1⟩
           | _ => Except.error ParseError.TitleOrPublisherMissing)) ∧
    parse_book_apa_like twoYearRef =
      Except.ok ⟨[(("Doe").data, ("J").data)], ("1996").data,
        ("Title (2000) more").data, ("Pub").data⟩ := by
  refine ⟨fun l i h => findYearIdx_eq_some_iff.1 h, ?_, by rfl⟩
  intro raw i h
  simp only [parse_book_apa_like, h]

/-- C9, witness: in `x (1999) (2000)` the scanner reports index 2, where
the leftmost year group starts, and no earlier index matches. -/
theorem C9_leftmost_year_witness :
    findYearIdx (("x (1999) (2000)").data) = some 2 ∧
    startsWithYear ((("x (1999) (2000)").data).drop 2) = true :=
  ⟨by decide, (C9_leftmost_year.1 (("x (1999) (2000)").data) 2 (by decide)).1⟩

/-! ### Claim C5 -/

/-- C5, counterexample: `NoComma (1996). OnlyTitle` contains a year and
its post-year tail has a single piece, yet parsing fails with
`AuthorFormatError`, not `TitleOrPublisherMissing` - the author check runs
before the tail check. -/
theorem C5_author_error_preempts :
    findYearIdx (pyNormalize noCommaRef) = some 8 ∧
    (piecesOf (pyNormalize noCommaRef) 8).length < 2 ∧
    parse_book_apa_like noCommaRef =
      Except.error (ParseError.AuthorFormatError (("NoComma").data)) ∧
    parse_book_apa_like noCommaRef ≠ Except.error ParseError.TitleOrPublisherMissing := by
  refine ⟨by decide, by decide, by rfl, ?_⟩
  intro h
  rw [show parse_book_apa_like noCommaRef =
    Except.error (ParseError.AuthorFormatError (("NoComma").data)) from rfl] at h
  injection h with h
  cases h

/-- C5 (amended): for a citation with a `(YYYY)` year whose author segment
parses successfully, a post-year tail with fewer than two non-empty pieces
fails with `TitleOrPublisherMissing`; with two or more pieces parsing
succeeds and every piece beyond the first two is ignored (the result is
built from the first two pieces only). -/
theorem C5_tail_pieces (raw : LC) (i : Nat) (as : List (LC × LC))
    (hy : findYearIdx (pyNormalize raw) = some i)
    (hauth : parseAuthors (beforeOf (pyNormalize raw) i) = Except.ok as) :
    ((piecesOf (pyNormalize raw) i).length < 2 →
      parse_book_apa_like raw = Except.error ParseError.TitleOrPublisherMissing) ∧
    (∀ p0 p1 rest, piecesOf (pyNormalize raw) i = p0 :: p1 :: rest →
      parse_book_apa_like raw =
        Except.ok ⟨as, yearOf (pyNormalize raw) i, pstrip (edStripFrom p0), p1⟩) := by
  constructor
  · intro hlen
    simp only [parse_book_apa_like, hy, hauth]
    rcases hp : piecesOf (pyNormalize raw) i with _ | ⟨p0, _ | ⟨p1, rest⟩⟩
    · rfl
    · rfl
    · exfalso
      rw [hp] at hlen
      simp only [List.length_cons] at hlen
      omega
  · intro p0 p1 rest hp
    simp only [parse_book_apa_like, hy, hauth, hp]

/-- C5, witness: the Simon citation instantiates the amended claim with a
two-piece tail. -/
theorem C5_tail_pieces_witness :
    parse_book_apa_like simonRef =
      Except.ok ⟨[(("Simon").data, ("H. A").data)],
        yearOf (pyNormalize simonRef) 13,
        pstrip (edStripFrom (("The Sciences of the Artificial").data)), ("MIT Press").data⟩ :=
  (C5_tail_pieces simonRef 13 [(("Simon").data, ("H. A").data)] (by decide) (by rfl)).2
    (("The Sciences of the Artificial").data) (("MIT Press").data) [] (by rfl)

/-! ### Claim C7: the edition-marker regex -/

theorem edSuffixMatch_ws_cons {c : Char} (t : LC) (hc : isWsC c = true) :
    edSuffixMatch (c :: t) = edSuffixMatch t := by
  unfold edSuffixMatch
  rw [List.dropWhile_cons, if_pos hc]

theorem edSuffixMatch_cons_eq {c : Char} (u : LC) (hc : isWsC c = false) :
    edSuffixMatch (c :: u) = (c == '(' &&
      (match findCharIdx ')' u with
       | none => false
       | some k => midEndsEd (u.take k) && (u.drop (k + 1)).all isWsC)) := by
  unfold edSuffixMatch
  rw [List.dropWhile_cons, if_neg (by simp [hc])]

theorem edSuffixMatch_dropWhile_cons {t : LC} {c : Char} {u : LC}
    (hd : t.dropWhile isWsC = c :: u) :
    edSuffixMatch t = (c == '(' &&
      (match findCharIdx ')' u with
       | none => false
       | some k => midEndsEd (u.take k) && (u.drop (k + 1)).all isWsC)) := by
  unfold edSuffixMatch
  rw [hd]

theorem edSuffixMatch_no_paren {t : LC} (h : '(' ∉ t) : edSuffixMatch t = false := by
  rcases hd : t.dropWhile isWsC with _ | ⟨c, u⟩
  · unfold edSuffixMatch
    rw [hd]
  · have hc : c ∈ t := mem_dropWhile (by rw [hd]; exact List.mem_cons_self _ _)
    have hcp : (c == '(') = false := beq_eq_false_iff_ne.2 (fun hh => h (hh ▸ hc))
    rw [edSuffixMatch_dropWhile_cons hd, hcp]
    rfl

theorem edSuffixMatch_head_block {x : LC} (R : LC) (hxne : x ≠ [])
    (hxr : stripRight isWsC x = x) (hxp : '(' ∉ x) :
    edSuffixMatch (x ++ R) = false := by
  obtain ⟨a, ha⟩ : ∃ a, x.getLast? = some a := by
    rcases hg : x.getLast? with _ | a
    · exact absurd (List.getLast?_eq_none_iff.1 hg) hxne
    · exact ⟨a, rfl⟩
  have haw : isWsC a = false := getLast?_false_of_stripRight_eq_self hxr ha
  have hxe : (x.dropWhile isWsC).isEmpty = false := by
    rcases hd : x.dropWhile isWsC with _ | ⟨c, u⟩
    · exfalso
      have := List.dropWhile_eq_nil_iff.1 hd
      have hamem : a ∈ x := List.mem_of_mem_getLast? ha
      rw [this a hamem] at haw
      cases haw
    · rfl
  rcases hd : x.dropWhile isWsC with _ | ⟨c, u⟩
  · rw [hd] at hxe; cases hxe
  · have hd2 : (x ++ R).dropWhile isWsC = c :: (u ++ R) := by
      rw [List.dropWhile_append, hxe]
      simp only [Bool.false_eq_true, if_false]
      rw [hd, List.cons_append]
    have hc : c ∈ x := mem_dropWhile (by rw [hd]; exact List.mem_cons_self _ _)
    have hcp : (c == '(') = false := beq_eq_false_iff_ne.2 (fun hh => hxp (hh ▸ hc))
    rw [edSuffixMatch_dropWhile_cons hd2, hcp]
    rfl

theorem midEndsEd_marker {M : LC} {e d : Char}
    (he : e = 'e' ∨ e = 'E') (hd : d = 'd' ∨ d = 'D') :
    midEndsEd (M ++ [e, d, '.']) = true := by
  unfold midEndsEd
  rw [List.reverse_append]
  have h2 : ([e, d, '.'] : LC).reverse = '.' :: d :: e :: [] := by rfl
  rw [h2, List.cons_append, List.cons_append, List.cons_append]
  rcases he with rfl | rfl <;> rcases hd with rfl | rfl <;> rfl

theorem edSuffixMatch_at_marker {M : LC} {e d : Char} (hM : ')' ∉ M)
    (he : e = 'e' ∨ e = 'E') (hd : d = 'd' ∨ d = 'D') :
    edSuffixMatch ('(' :: (M ++ [e, d, '.', ')'])) = true := by
  rw [edSuffixMatch_cons_eq _ (by decide)]
  have hfc : findCharIdx ')' (M ++ [e, d, '.', ')']) = some (M ++ [e, d, '.']).length := by
    have h2 : M ++ [e, d, '.', ')'] = (M ++ [e, d, '.']) ++ ')' :: [] := by simp
    rw [h2]
    apply findCharIdx_append_first
    intro hm
    rcases List.mem_append.1 hm with h | h
    · exact hM h
    · simp only [List.mem_cons, List.not_mem_nil, or_false] at h
      rcases h with h | h | h
      · rcases he with rfl | rfl <;> exact absurd h.symm (by decide)
      · rcases hd with rfl | rfl <;> exact absurd h.symm (by decide)
      · exact absurd h.symm (by decide)
  rw [hfc]
  have htake : (M ++ [e, d, '.', ')']).take (M ++ [e, d, '.']).length = M ++ [e, d, '.'] := by
    have h2 : M ++ [e, d, '.', ')'] = (M ++ [e, d, '.']) ++ [')'] := by simp
    rw [h2, List.take_left]
  have hdrop : (M ++ [e, d, '.', ')']).drop ((M ++ [e, d, '.']).length + 1) = [] := by
    apply List.drop_eq_nil_of_le
    simp
  dsimp only
  rw [htake, hdrop, midEndsEd_marker he hd]
  rfl

theorem edSuffixMatch_paren_nonmarker {M : LC} (hMp : ')' ∉ M) (hMm : midEndsEd M = false) :
    edSuffixMatch ('(' :: (M ++ [')'])) = false := by
  rw [edSuffixMatch_cons_eq _ (by decide)]
  have hfc : findCharIdx ')' (M ++ [')']) = some M.length := by
    have h2 : M ++ [')'] = M ++ ')' :: [] := rfl
    rw [h2]
    exact findCharIdx_append_first [] hMp
  rw [hfc]
  have htake : (M ++ [')']).take M.length = M := List.take_left _ _
  dsimp only
  rw [htake, hMm]
  rfl

theorem edStripFrom_of_match {l : LC} (h : edSuffixMatch l = true) : edStripFrom l = [] := by
  rcases l with _ | ⟨c, rest⟩
  · rfl
  · rw [edStripFrom, if_pos h]

theorem edStripFrom_no_match : ∀ {l : LC}, (∀ i, edSuffixMatch (l.drop i) = false) →
    edStripFrom l = l := by
  intro l
  induction l with
  | nil => intro h; rfl
  | cons c rest ih =>
    intro h
    rw [edStripFrom, if_neg (by
      have h0 := h 0
      rw [List.drop_zero] at h0
      rw [h0]
      simp)]
    rw [ih (fun i => by
      have hsucc := h (i + 1)
      rw [List.drop_succ_cons] at hsucc
      exact hsucc)]

theorem edStripFrom_append {R : LC} : ∀ {B : LC},
    (∀ i, i < B.length → edSuffixMatch ((B ++ R).drop i) = false) →
    edStripFrom (B ++ R) = B ++ edStripFrom R := by
  intro B
  induction B with
  | nil => intro h; rfl
  | cons c B' ih =>
    intro h
    rw [List.cons_append, edStripFrom, if_neg (by
      have h0 := h 0 (by simp)
      rw [List.drop_zero, List.cons_append] at h0
      rw [h0]
      simp)]
    rw [ih (fun i hi => by
      have hsucc := h (i + 1) (by simp only [List.length_cons]; omega)
      rw [List.cons_append, List.drop_succ_cons] at hsucc
      exact hsucc)]
    rfl

theorem stripRight_eq_self_of_getLast {p : Char → Bool} {x : LC} {a : Char}
    (ha : x.getLast? = some a) (hpa : p a = false) : stripRight p x = x := by
  unfold stripRight
  have hrev : x.reverse.head? = some a := by rw [List.head?_reverse]; exact ha
  rcases hx : x.reverse with _ | ⟨b, rest⟩
  · rw [hx] at hrev; cases hrev
  · have hb : b = a := by rw [hx] at hrev; simpa using hrev
    rw [dropWhile_cons_of_false _ (by rw [hb]; exact hpa)]
    have h3 := congrArg List.reverse hx
    rw [List.reverse_reverse] at h3
    exact h3.symm

theorem getLast?_drop_ne {B : LC} {i : Nat} (h : B.drop i ≠ []) :
    (B.drop i).getLast? = B.getLast? := by
  conv_rhs => rw [← List.take_append_drop i B]
  rw [getLast?_append_of_ne h]

/-- C7: the title transform of line 75 strips a trailing parenthetical
edition marker `(... ed.)` - case-insensitively in the `ed` - and leaves
any other trailing parenthetical (one whose content does not end in
`ed.`) verbatim, stripping only at the very end of the piece. -/
theorem C7_edition_marker :
    (∀ (B M : LC) (e d : Char),
      stripLeft isWsC B = B → stripRight isWsC B = B → B ≠ [] → '(' ∉ B → ')' ∉ M →
      (e = 'e' ∨ e = 'E') → (d = 'd' ∨ d = 'D') →
      pstrip (edStripFrom (B ++ ' ' :: '(' :: (M ++ [e, d, '.', ')']))) = B) ∧
    (∀ B M : LC,
      stripLeft isWsC B = B → stripRight isWsC B = B → B ≠ [] → '(' ∉ B →
      '(' ∉ M → ')' ∉ M → midEndsEd M = false →
      pstrip (edStripFrom (B ++ ' ' :: '(' :: (M ++ [')']))) =
        B ++ ' ' :: '(' :: (M ++ [')'])) ∧
    pstrip (edStripFrom (("The CRC Handbook (2nd ed.)").data)) = ("The CRC Handbook").data ∧
    pstrip (edStripFrom (("The CRC Handbook (2ND ED.)").data)) = ("The CRC Handbook").data ∧
    pstrip (edStripFrom (("Collected Papers (reprint)").data)) =
      ("Collected Papers (reprint)").data := by
  have hblock : ∀ (B R : LC), stripRight isWsC B = B → B ≠ [] → '(' ∉ B →
      ∀ i, i < B.length → edSuffixMatch ((B ++ R).drop i) = false := by
    intro B R hBr hBne hBp i hi
    have hdne : B.drop i ≠ [] := by
      intro hnil
      have := congrArg List.length hnil
      rw [List.length_drop] at this
      simp at this
      omega
    have hd : (B ++ R).drop i = B.drop i ++ R := List.drop_append_of_le_length (by omega)
    rw [hd]
    obtain ⟨a, ha⟩ : ∃ a, B.getLast? = some a := by
      rcases hg : B.getLast? with _ | a
      · exact absurd (List.getLast?_eq_none_iff.1 hg) hBne
      · exact ⟨a, rfl⟩
    have haw : isWsC a = false := getLast?_false_of_stripRight_eq_self hBr ha
    apply edSuffixMatch_head_block R hdne
    · exact stripRight_eq_self_of_getLast (by rw [getLast?_drop_ne hdne]; exact ha) haw
    · exact fun hm => hBp (List.mem_of_mem_drop hm)
  refine ⟨?_, ?_, by decide, by decide, by decide⟩
  · intro B M e d hBl hBr hBne hBp hM he hd
    rw [edStripFrom_append (fun i hi => hblock B _ hBr hBne hBp i hi)]
    rw [edStripFrom_of_match (show edSuffixMatch (' ' :: '(' :: (M ++ [e, d, '.', ')'])) = true
      from by rw [edSuffixMatch_ws_cons _ (by decide)]; exact edSuffixMatch_at_marker hM he hd)]
    rw [List.append_nil]
    exact pstrip_eq_self hBl hBr
  · intro B M hBl hBr hBne hBp hMp hMcp hMm
    have hall : ∀ i, edSuffixMatch ((B ++ ' ' :: '(' :: (M ++ [')'])).drop i) = false := by
      intro i
      rcases lt_or_ge i B.length with hi | hi
      · exact hblock B _ hBr hBne hBp i hi
      · have hd : (B ++ ' ' :: '(' :: (M ++ [')'])).drop i =
            (' ' :: '(' :: (M ++ [')'])).drop (i - B.length) := by
          have h1 := List.drop_drop (i - B.length) B.length (B ++ ' ' :: '(' :: (M ++ [')']))
          rw [List.drop_left] at h1
          have h2 : B.length + (i - B.length) = i := by omega
          rw [h2] at h1
          exact h1.symm
        rw [hd]
        rcases hj : i - B.length with _ | j
        · rw [List.drop_zero, edSuffixMatch_ws_cons _ (by decide)]
          exact edSuffixMatch_paren_nonmarker hMcp hMm
        · rw [List.drop_succ_cons]
          rcases j with _ | k
          · rw [List.drop_zero]
            exact edSuffixMatch_paren_nonmarker hMcp hMm
          · rw [List.drop_succ_cons]
            apply edSuffixMatch_no_paren
            intro hm
            have hm2 := List.mem_of_mem_drop hm
            rcases List.mem_append.1 hm2 with h | h
            · exact hMp h
            · simp only [List.mem_singleton] at h
              exact absurd h (by decide)
    rw [edStripFrom_no_match hall]
    apply pstrip_eq_self
    · exact stripLeft_append_of_ne _ hBl hBne
    · have h2 : B ++ ' ' :: '(' :: (M ++ [')']) = (B ++ ' ' :: '(' :: M) ++ [')'] := by simp
      rw [h2, stripRight_snoc_false _ (by decide)]

/-- C7, witness: `The Art (2nd ed.)` has its edition marker stripped,
and the assembled list is literally that string. -/
theorem C7_edition_marker_witness :
    pstrip (edStripFrom (("The Art").data ++ ' ' :: '(' ::
      ((("2nd ").data) ++ ['e', 'd', '.', ')']))) = ("The Art").data ∧
    ("The Art").data ++ ' ' :: '(' :: ((("2nd ").data) ++ ['e', 'd', '.', ')']) =
      ("The Art (2nd ed.)").data :=
  ⟨C7_edition_marker.1 (("The Art").data) (("2nd ").data) 'e' 'd'
      (by decide) (by decide) (by decide) (by decide) (by decide)
      (Or.inl rfl) (Or.inl rfl),
    by decide⟩

/-! ### Claim C10 -/

/-- C10, counterexample: the accepted citation `A, B. .. Cx, D (1996). T. P.`
stores the first author's First field as `B.`, which ends with a period:
the regex split leaves a fragment `A, B. .` whose space-separated trailing
period survives the strip-then-rstrip processing. -/
theorem C10_first_field_period_counterexample :
    parse_book_apa_like dotFirstRef =
      Except.ok ⟨[(("A").data, ("B.").data), (("Cx").data, ("D").data)],
        ("1996").data, ("T").data, ("P").data⟩ ∧
    (("B.").data).getLast? = some ('.') := by
  constructor
  · rfl
  · rfl

/-- C10 (amended): every author fragment has its trailing periods stripped
(after whitespace trimming) before the `Last, First` match, so the
processed fragment itself never ends with a period; in particular the
initials `H. A.` of the Simon citation are stored as `H. A`.  (A parsed
`Last` or `First` field can nonetheless end with a period when whitespace
separates it from the stripped trailing periods.) -/
theorem C10_fragment_trailing_periods :
    (∀ (p0 : LC) (c : Char), (rstripDot (pstrip p0)).getLast? = some c → (c == '.') = false) ∧
    (parse_book_apa_like simonRef).toOption.map Citation.authors =
      some [(("Simon").data, ("H. A").data)] := by
  constructor
  · intro p0 c h
    have h' : (stripRight (fun ch => ch == '.') (pstrip p0)).getLast? = some c := h
    exact @stripRight_getLast?_false (fun ch => ch == '.') (pstrip p0) c h'
  · rfl

/-- C10, witness: the fragment `A, B..` is processed to `A, B`, whose last
character is not a period. -/
theorem C10_fragment_trailing_periods_witness :
    (rstripDot (pstrip (("A, B..").data))).getLast? = some 'B' ∧ ('B' == '.') = false :=
  ⟨by decide, C10_fragment_trailing_periods.1 (("A, B..").data) 'B' (by decide)⟩

/-! ### Splitting a two-author segment at the ampersand separator -/

/-- A prefix match of `sep` at position `j` pins down the characters of `l`
at the positions `j + m` for `m < sep.length`. -/
theorem startsWith_drop_getElem {sep l : LC} {j m : Nat}
    (h : startsWith sep (l.drop j) = true) (hm : m < sep.length) :
    l[j + m]? = sep[m]? := by
  obtain ⟨t, ht⟩ := startsWith_iff.1 h
  have h1 : (l.drop j)[m]? = l[j + m]? := List.getElem?_drop l j m
  rw [← h1, ht, List.getElem?_append, if_pos hm]

/-- In `x ++ '&' :: y` with no other ampersand, the unique position holding
`'&'` is `x.length`. -/
theorem amp_unique {x y : LC} {j : Nat} (hx : '&' ∉ x) (hy : '&' ∉ y)
    (h : (x ++ '&' :: y)[j]? = some '&') : j = x.length := by
  rcases Nat.lt_trichotomy j x.length with hlt | heq | hgt
  · exfalso
    rw [List.getElem?_append, if_pos hlt] at h
    exact hx (List.getElem?_mem h)
  · exact heq
  · exfalso
    rw [List.getElem?_append_right (by omega)] at h
    obtain ⟨k, hk⟩ : ∃ k, j - x.length = k + 1 := ⟨j - x.length - 1, by omega⟩
    rw [hk, List.getElem?_cons_succ] at h
    exact hy (List.getElem?_mem h)

/-- The separator `" & "` occurs in `A1 ++ " & " ++ A2` exactly at the
join, provided neither side contains an ampersand. -/
theorem amp_findSub {A1 A2 : LC} (h1 : '&' ∉ A1) (h2 : '&' ∉ A2) :
    findSubIdx (' ' :: '&' :: [' ']) (A1 ++ ' ' :: '&' :: ' ' :: A2) = some A1.length := by
  have hx : '&' ∉ A1 ++ [' '] := by
    intro hm
    rcases List.mem_append.1 hm with h | h
    · exact h1 h
    · exact absurd (List.mem_singleton.1 h) (by decide)
  have hy : '&' ∉ ' ' :: A2 := by
    intro hm
    rcases List.mem_cons.1 hm with h | h
    · exact absurd h (by decide)
    · exact h2 h
  rw [findSubIdx_eq_some_iff (by simp)]
  constructor
  · rw [List.drop_left]
    have hsh : (' ' :: '&' :: ' ' :: A2) = (' ' :: '&' :: [' ']) ++ A2 := rfl
    rw [hsh]
    exact startsWith_append _ _
  · intro j hj
    by_contra hc
    have hst : startsWith (' ' :: '&' :: [' '])
        ((A1 ++ ' ' :: '&' :: ' ' :: A2).drop j) = true := by simpa using hc
    have hamp := startsWith_drop_getElem (m := 1) hst (by decide)
    have hsh : A1 ++ ' ' :: '&' :: ' ' :: A2 = (A1 ++ [' ']) ++ '&' :: (' ' :: A2) := by simp
    rw [hsh] at hamp
    have hamp' : ((A1 ++ [' ']) ++ '&' :: (' ' :: A2))[j + 1]? = some '&' := hamp
    have hj1 := amp_unique hx hy hamp'
    simp only [List.length_append, List.length_singleton] at hj1
    omega

/-- Splitting `A1 ++ " & " ++ A2` on `" & "` yields exactly `[A1, A2]`. -/
theorem amp_split {A1 A2 : LC} (h1 : '&' ∉ A1) (h2 : '&' ∉ A2) :
    splitOnSub (' ' :: '&' :: [' ']) (A1 ++ ' ' :: '&' :: ' ' :: A2) = [A1, A2] := by
  rw [splitOnSub_of_some (by simp) (amp_findSub h1 h2), List.take_left]
  have hdrop : (A1 ++ ' ' :: '&' :: ' ' :: A2).drop
      (A1.length + (' ' :: '&' :: [' ']).length) = A2 := by
    have hsh : A1 ++ ' ' :: '&' :: ' ' :: A2 = (A1 ++ [' ', '&', ' ']) ++ A2 := by simp
    rw [hsh, List.drop_left' (by simp)]
  rw [hdrop, splitOnSub_of_none (findSubIdx_none_of_not_mem (by simp) h2)]

/-- With no ampersand in either part and `A1` not ending in a comma, the
pattern `", &"` does not occur in `A1 ++ " & " ++ A2`, so the
normalization `replace(", &", " &")` leaves the segment unchanged. -/
theorem no_comma_amp {A1 A2 : LC} (h1 : '&' ∉ A1) (h2 : '&' ∉ A2)
    (hlast : A1.getLast? ≠ some ',') :
    findSubIdx (',' :: ' ' :: ['&']) (A1 ++ ' ' :: '&' :: ' ' :: A2) = none := by
  have hx : '&' ∉ A1 ++ [' '] := by
    intro hm
    rcases List.mem_append.1 hm with h | h
    · exact h1 h
    · exact absurd (List.mem_singleton.1 h) (by decide)
  have hy : '&' ∉ ' ' :: A2 := by
    intro hm
    rcases List.mem_cons.1 hm with h | h
    · exact absurd h (by decide)
    · exact h2 h
  rw [findSubIdx_eq_none_iff (by simp)]
  intro j
  by_contra hc
  have hst : startsWith (',' :: ' ' :: ['&'])
      ((A1 ++ ' ' :: '&' :: ' ' :: A2).drop j) = true := by simpa using hc
  have hamp := startsWith_drop_getElem (m := 2) hst (by decide)
  have hsh : A1 ++ ' ' :: '&' :: ' ' :: A2 = (A1 ++ [' ']) ++ '&' :: (' ' :: A2) := by simp
  rw [hsh] at hamp
  have hamp' : ((A1 ++ [' ']) ++ '&' :: (' ' :: A2))[j + 2]? = some '&' := hamp
  have hj2 := amp_unique hx hy hamp'
  simp only [List.length_append, List.length_singleton] at hj2
  have hjlt : j < A1.length := by omega
  have hcomma := startsWith_drop_getElem (m := 0) hst (by decide)
  rw [Nat.add_zero, List.getElem?_append, if_pos hjlt] at hcomma
  have hcomma' : A1[j]? = some ',' := hcomma
  apply hlast
  rw [List.getLast?_eq_getElem?]
  have hj : A1.length - 1 = j := by omega
  rw [hj]
  exact hcomma'

/-- The pattern `", &"` occurs in `A1 ++ ", & " ++ A2` exactly at the
join, provided neither side contains an ampersand. -/
theorem comma_amp_findSub {A1 A2 : LC} (h1 : '&' ∉ A1) (h2 : '&' ∉ A2) :
    findSubIdx (',' :: ' ' :: ['&']) (A1 ++ ',' :: ' ' :: '&' :: ' ' :: A2) =
      some A1.length := by
  have hx : '&' ∉ A1 ++ [',', ' '] := by
    intro hm
    rcases List.mem_append.1 hm with h | h
    · exact h1 h
    · rcases List.mem_cons.1 h with h | h
      · exact absurd h (by decide)
      · exact absurd (List.mem_singleton.1 h) (by decide)
  have hy : '&' ∉ ' ' :: A2 := by
    intro hm
    rcases List.mem_cons.1 hm with h | h
    · exact absurd h (by decide)
    · exact h2 h
  rw [findSubIdx_eq_some_iff (by simp)]
  constructor
  · rw [List.drop_left]
    have hsh : (',' :: ' ' :: '&' :: ' ' :: A2) = (',' :: ' ' :: ['&']) ++ (' ' :: A2) := rfl
    rw [hsh]
    exact startsWith_append _ _
  · intro j hj
    by_contra hc
    have hst : startsWith (',' :: ' ' :: ['&'])
        ((A1 ++ ',' :: ' ' :: '&' :: ' ' :: A2).drop j) = true := by simpa using hc
    have hamp := startsWith_drop_getElem (m := 2) hst (by decide)
    have hsh : A1 ++ ',' :: ' ' :: '&' :: ' ' :: A2 =
        (A1 ++ [',', ' ']) ++ '&' :: (' ' :: A2) := by simp
    rw [hsh] at hamp
    have hamp' : ((A1 ++ [',', ' ']) ++ '&' :: (' ' :: A2))[j + 2]? = some '&' := hamp
    have hj2 := amp_unique hx hy hamp'
    simp only [List.length_append, List.length_cons, List.length_nil] at hj2
    omega

/-- `replace(", &", " &")` rewrites `A1 ++ ", & " ++ A2` to
`A1 ++ " & " ++ A2`. -/
theorem replace_comma_amp {A1 A2 : LC} (h1 : '&' ∉ A1) (h2 : '&' ∉ A2) :
    replaceSub (',' :: ' ' :: ['&']) (' ' :: ['&']) (A1 ++ ',' :: ' ' :: '&' :: ' ' :: A2) =
      A1 ++ ' ' :: '&' :: ' ' :: A2 := by
  have hy : '&' ∉ ' ' :: A2 := by
    intro hm
    rcases List.mem_cons.1 hm with h | h
    · exact absurd h (by decide)
    · exact h2 h
  rw [replaceSub_of_some (by simp) (comma_amp_findSub h1 h2), List.take_left]
  have hdrop : (A1 ++ ',' :: ' ' :: '&' :: ' ' :: A2).drop
      (A1.length + (',' :: ' ' :: ['&']).length) = ' ' :: A2 := by
    have hsh : A1 ++ ',' :: ' ' :: '&' :: ' ' :: A2 =
        (A1 ++ [',', ' ', '&']) ++ (' ' :: A2) := by simp
    rw [hsh, List.drop_left' (by simp)]
  rw [hdrop, replaceSub_of_none (findSubIdx_none_of_not_mem (by simp) hy)]
  simp

/-- A `Last, First` chunk is already space-trimmed when its parts are. -/
theorem pstrip_author_chunk {L F : LC}
    (hLl : stripLeft isWsC L = L) (hLne : L ≠ [])
    (hFr : stripRight isWsC F = F) (hFne : F ≠ []) :
    pstrip (L ++ ',' :: ' ' :: F) = L ++ ',' :: ' ' :: F := by
  have hBl : stripLeft isWsC (L ++ ',' :: ' ' :: F) = L ++ ',' :: ' ' :: F :=
    stripLeft_append_of_ne _ hLl hLne
  have hBr : stripRight isWsC (L ++ ',' :: ' ' :: F) = L ++ ',' :: ' ' :: F := by
    have h2 : L ++ ',' :: ' ' :: F = (L ++ [',', ' ']) ++ F := by simp
    rw [h2, stripRight_append (p := isWsC) (y := F) (L ++ [',', ' '])
      (by rw [hFr]; exact hFne), hFr]
  exact pstrip_eq_self hBl hBr

/-- Processing a well-formed `Last, First` chunk yields one fragment, and
that fragment matches to `Last` paired with `First` minus its trailing
periods - whether or not the chunk already ends with a period. -/
theorem processChunk_author {L F : LC}
    (hLc : ',' ∉ L) (hLl : stripLeft isWsC L = L) (hLr : stripRight isWsC L = L)
    (hLne : L ≠ [])
    (hFr : stripRight isWsC F = F) (hFdne : rstripDot F ≠ [])
    (hFdl : stripLeft isWsC (rstripDot F) = rstripDot F)
    (hFdr : stripRight isWsC (rstripDot F) = rstripDot F)
    (hsp : findSplitPos (L ++ ',' :: ' ' :: F) = none)
    (hdc : findSubIdx ('.' :: [',']) (L ++ ',' :: ' ' :: F) = none) :
    ∃ q, processChunk (L ++ ',' :: ' ' :: F) = [q] ∧
      parseFragment q = Except.ok (L, rstripDot F) := by
  have hFne : F ≠ [] := by
    intro h
    rw [h] at hFdne
    exact hFdne rfl
  have hBne : (L ++ ',' :: ' ' :: F) ≠ [] := List.append_ne_nil_of_left_ne_nil hLne _
  have hBl : stripLeft isWsC (L ++ ',' :: ' ' :: F) = L ++ ',' :: ' ' :: F :=
    stripLeft_append_of_ne _ hLl hLne
  have hpsB : pstrip (L ++ ',' :: ' ' :: F) = L ++ ',' :: ' ' :: F :=
    pstrip_author_chunk hLl hLne hFr hFne
  have hrdB : rstripDot (L ++ ',' :: ' ' :: F) = L ++ ',' :: ' ' :: rstripDot F := by
    have h2 : L ++ ',' :: ' ' :: F = (L ++ [',', ' ']) ++ F := by simp
    have h3 : L ++ ',' :: ' ' :: rstripDot F = (L ++ [',', ' ']) ++ rstripDot F := by simp
    rw [h2, h3, rstripDot_append hFdne]
  refine ⟨if (L ++ ',' :: ' ' :: F).getLast? == some '.' then L ++ ',' :: ' ' :: F
      else (L ++ ',' :: ' ' :: F) ++ ['.'], processChunk_fallback hsp hdc hBne hpsB, ?_⟩
  by_cases hq : ((L ++ ',' :: ' ' :: F).getLast? == some '.') = true
  · rw [if_pos hq]
    simp only [parseFragment, hpsB, hrdB,
      matchAuthor_structured hLc hLl hLr hLne hFdne hFdl hFdr]
  · rw [if_neg hq]
    have hpsQ : pstrip ((L ++ ',' :: ' ' :: F) ++ ['.']) = (L ++ ',' :: ' ' :: F) ++ ['.'] :=
      pstrip_eq_self (stripLeft_append_of_ne ['.'] hBl hBne)
        (stripRight_snoc_false _ (by decide))
    have hrdQ : rstripDot ((L ++ ',' :: ' ' :: F) ++ ['.']) =
        L ++ ',' :: ' ' :: rstripDot F := by
      rw [rstripDot_snoc, hrdB]
    simp only [parseFragment, hpsQ, hrdQ,
      matchAuthor_structured hLc hLl hLr hLne hFdne hFdl hFdr]

/-- The whole author-segment pipeline on a well-formed two-author segment
joined by `" & "` or by `", & "`; the second first-name block `F2` is
assumed already dot-stripped, as the trailing `rstrip(".")` of the whole
author segment leaves it. -/
theorem parseAuthors_pair {L1 F1 L2 F2 sep : LC}
    (hsep : sep = ' ' :: '&' :: [' '] ∨ sep = ',' :: ' ' :: '&' :: [' '])
    (hL1c : ',' ∉ L1) (hL1l : stripLeft isWsC L1 = L1) (hL1r : stripRight isWsC L1 = L1)
    (hL1ne : L1 ≠ []) (hL1a : '&' ∉ L1)
    (hF1a : '&' ∉ F1) (hF1r : stripRight isWsC F1 = F1)
    (hF1dne : rstripDot F1 ≠ [])
    (hF1dl : stripLeft isWsC (rstripDot F1) = rstripDot F1)
    (hF1dr : stripRight isWsC (rstripDot F1) = rstripDot F1)
    (hF1lc : F1.getLast? ≠ some ',')
    (hL2c : ',' ∉ L2) (hL2l : stripLeft isWsC L2 = L2) (hL2r : stripRight isWsC L2 = L2)
    (hL2ne : L2 ≠ []) (hL2a : '&' ∉ L2)
    (hF2a : '&' ∉ F2) (hF2ne : F2 ≠ []) (hF2l : stripLeft isWsC F2 = F2)
    (hF2r : stripRight isWsC F2 = F2) (hF2d : rstripDot F2 = F2)
    (hsp1 : findSplitPos (L1 ++ ',' :: ' ' :: F1) = none)
    (hdc1 : findSubIdx ('.' :: [',']) (L1 ++ ',' :: ' ' :: F1) = none)
    (hsp2 : findSplitPos (L2 ++ ',' :: ' ' :: F2) = none)
    (hdc2 : findSubIdx ('.' :: [',']) (L2 ++ ',' :: ' ' :: F2) = none) :
    parseAuthors ((L1 ++ ',' :: ' ' :: F1) ++ sep ++ (L2 ++ ',' :: ' ' :: F2)) =
      Except.ok [(L1, rstripDot F1), (L2, F2)] := by
  have hF1ne : F1 ≠ [] := by
    intro h
    rw [h] at hF1dne
    exact hF1dne rfl
  have hampA1 : '&' ∉ L1 ++ ',' :: ' ' :: F1 := by
    intro hm
    simp only [List.mem_append, List.mem_cons] at hm
    rcases hm with h | h | h | h
    · exact hL1a h
    · exact absurd h (by decide)
    · exact absurd h (by decide)
    · exact hF1a h
  have hampA2 : '&' ∉ L2 ++ ',' :: ' ' :: F2 := by
    intro hm
    simp only [List.mem_append, List.mem_cons] at hm
    rcases hm with h | h | h | h
    · exact hL2a h
    · exact absurd h (by decide)
    · exact absurd h (by decide)
    · exact hF2a h
  have hA1last : (L1 ++ ',' :: ' ' :: F1).getLast? ≠ some ',' := by
    have h2 : L1 ++ ',' :: ' ' :: F1 = (L1 ++ [',', ' ']) ++ F1 := by simp
    rw [h2, getLast?_append_of_ne hF1ne]
    exact hF1lc
  obtain ⟨q1, hq1, hf1⟩ :=
    processChunk_author hL1c hL1l hL1r hL1ne hF1r hF1dne hF1dl hF1dr hsp1 hdc1
  obtain ⟨q2, hq2, hf2⟩ :=
    processChunk_author hL2c hL2l hL2r hL2ne hF2r (by rw [hF2d]; exact hF2ne)
      (by rw [hF2d]; exact hF2l) (by rw [hF2d]; exact hF2r) hsp2 hdc2
  rw [hF2d] at hf2
  have hps1 : pstrip (L1 ++ ',' :: ' ' :: F1) = L1 ++ ',' :: ' ' :: F1 :=
    pstrip_author_chunk hL1l hL1ne hF1r hF1ne
  have hps2 : pstrip (L2 ++ ',' :: ' ' :: F2) = L2 ++ ',' :: ' ' :: F2 :=
    pstrip_author_chunk hL2l hL2ne hF2r hF2ne
  rcases hsep with rfl | rfl
  · have hshape : (L1 ++ ',' :: ' ' :: F1) ++ (' ' :: '&' :: [' ']) ++
        (L2 ++ ',' :: ' ' :: F2) =
        (L1 ++ ',' :: ' ' :: F1) ++ ' ' :: '&' :: ' ' :: (L2 ++ ',' :: ' ' :: F2) := by simp
    rw [hshape]
    simp only [parseAuthors]
    rw [replaceSub_of_none (no_comma_amp hampA1 hampA2 hA1last)]
    rw [amp_split hampA1 hampA2]
    simp only [List.map_cons, List.map_nil, hps1, hps2, hq1, hq2, List.flatten_cons,
      List.flatten_nil, List.append_nil, List.singleton_append]
    exact parseFragments_pair hf1 hf2
  · have hshape : (L1 ++ ',' :: ' ' :: F1) ++ (',' :: ' ' :: '&' :: [' ']) ++
        (L2 ++ ',' :: ' ' :: F2) =
        (L1 ++ ',' :: ' ' :: F1) ++ ',' :: ' ' :: '&' :: ' ' :: (L2 ++ ',' :: ' ' :: F2) := by
      simp
    rw [hshape]
    simp only [parseAuthors]
    rw [replace_comma_amp hampA1 hampA2]
    rw [amp_split hampA1 hampA2]
    simp only [List.map_cons, List.map_nil, hps1, hps2, hq1, hq2, List.flatten_cons,
      List.flatten_nil, List.append_nil, List.singleton_append]
    exact parseFragments_pair hf1 hf2

/-! ### Claim C6 -/

/-- C6: for every well-formed two-author citation whose author segment
joins the two authors with `" & "` or with `", & "`, parsing succeeds and
yields exactly two authors, in the same left-to-right order as in the
source string (each first-name block has its trailing periods stripped, as
established for C1/C10).  The hypotheses spell out well-formedness of the
two `Last, First` parts exactly as in the single-author case. -/
theorem C6_two_author_order (L1 F1 L2 F2 sep : LC) (y1 y2 y3 y4 : Char) (T P : LC)
    (hsep : sep = (" & ").data ∨ sep = (", & ").data)
    (hnorm : pyNormalize (bookCitation ((L1 ++ ',' :: ' ' :: F1) ++ sep ++
        (L2 ++ ',' :: ' ' :: F2)) y1 y2 y3 y4 T P) =
      bookCitation ((L1 ++ ',' :: ' ' :: F1) ++ sep ++ (L2 ++ ',' :: ' ' :: F2))
        y1 y2 y3 y4 T P)
    (hy1 : isDigitC y1 = true) (hy2 : isDigitC y2 = true)
    (hy3 : isDigitC y3 = true) (hy4 : isDigitC y4 = true)
    (hL1c : ',' ∉ L1) (hL1l : stripLeft isWsC L1 = L1) (hL1r : stripRight isWsC L1 = L1)
    (hL1ne : L1 ≠ []) (hL1p : '(' ∉ L1) (hL1a : '&' ∉ L1)
    (hF1p : '(' ∉ F1) (hF1a : '&' ∉ F1) (hF1r : stripRight isWsC F1 = F1)
    (hF1dne : rstripDot F1 ≠ [])
    (hF1dl : stripLeft isWsC (rstripDot F1) = rstripDot F1)
    (hF1dr : stripRight isWsC (rstripDot F1) = rstripDot F1)
    (hF1lc : F1.getLast? ≠ some ',')
    (hL2c : ',' ∉ L2) (hL2l : stripLeft isWsC L2 = L2) (hL2r : stripRight isWsC L2 = L2)
    (hL2ne : L2 ≠ []) (hL2p : '(' ∉ L2) (hL2a : '&' ∉ L2)
    (hF2p : '(' ∉ F2) (hF2a : '&' ∉ F2) (hF2r : stripRight isWsC F2 = F2)
    (hF2dne : rstripDot F2 ≠ [])
    (hF2dl : stripLeft isWsC (rstripDot F2) = rstripDot F2)
    (hF2dr : stripRight isWsC (rstripDot F2) = rstripDot F2)
    (hsp1 : findSplitPos (L1 ++ ',' :: ' ' :: F1) = none)
    (hdc1 : findSubIdx ('.' :: [',']) (L1 ++ ',' :: ' ' :: F1) = none)
    (hsp2 : findSplitPos (L2 ++ ',' :: ' ' :: rstripDot F2) = none)
    (hdc2 : findSubIdx ('.' :: [',']) (L2 ++ ',' :: ' ' :: rstripDot F2) = none)
    (hTd : '.' ∉ T) (hTne : T ≠ []) (hTl : stripLeft isWsC T = T)
    (hTr : stripRight isWsC T = T) (hTe : edStripFrom T = T)
    (hPd : '.' ∉ P) (hPne : P ≠ []) (hPl : stripLeft isWsC P = P)
    (hPr : stripRight isWsC P = P) :
    parse_book_apa_like (bookCitation ((L1 ++ ',' :: ' ' :: F1) ++ sep ++
        (L2 ++ ',' :: ' ' :: F2)) y1 y2 y3 y4 T P) =
      Except.ok ⟨[(L1, rstripDot F1), (L2, rstripDot F2)], [y1, y2, y3, y4], T, P⟩ := by
  have hF1ne : F1 ≠ [] := by
    intro h
    rw [h] at hF1dne
    exact hF1dne rfl
  have hF2ne : F2 ≠ [] := by
    intro h
    rw [h] at hF2dne
    exact hF2dne rfl
  have hsepp : '(' ∉ sep := by
    rcases hsep with rfl | rfl
    · decide
    · decide
  have hsep2 : sep = ' ' :: '&' :: [' '] ∨ sep = ',' :: ' ' :: '&' :: [' '] := hsep
  have hApar : '(' ∉ ((L1 ++ ',' :: ' ' :: F1) ++ sep ++ (L2 ++ ',' :: ' ' :: F2)) ++ [' '] := by
    intro hm
    rcases List.mem_append.1 hm with hm | hm
    · rcases List.mem_append.1 hm with hm | hm
      · rcases List.mem_append.1 hm with hm | hm
        · rcases List.mem_append.1 hm with hm | hm
          · exact hL1p hm
          · simp only [List.mem_cons] at hm
            rcases hm with h | h | h
            · exact absurd h (by decide)
            · exact absurd h (by decide)
            · exact hF1p h
        · exact hsepp hm
      · rcases List.mem_append.1 hm with hm | hm
        · exact hL2p hm
        · simp only [List.mem_cons] at hm
          rcases hm with h | h | h
          · exact absurd h (by decide)
          · exact absurd h (by decide)
          · exact hF2p h
    · exact absurd (List.mem_singleton.1 hm) (by decide)
  have hA1ne : L1 ++ ',' :: ' ' :: F1 ≠ [] := List.append_ne_nil_of_left_ne_nil hL1ne _
  have hA1l : stripLeft isWsC (L1 ++ ',' :: ' ' :: F1) = L1 ++ ',' :: ' ' :: F1 :=
    stripLeft_append_of_ne _ hL1l hL1ne
  have h12ne : (L1 ++ ',' :: ' ' :: F1) ++ sep ≠ [] :=
    List.append_ne_nil_of_left_ne_nil hA1ne _
  have h12l : stripLeft isWsC ((L1 ++ ',' :: ' ' :: F1) ++ sep) =
      (L1 ++ ',' :: ' ' :: F1) ++ sep := stripLeft_append_of_ne _ hA1l hA1ne
  have hA0l : stripLeft isWsC (((L1 ++ ',' :: ' ' :: F1) ++ sep) ++
        (L2 ++ ',' :: ' ' :: F2)) =
      ((L1 ++ ',' :: ' ' :: F1) ++ sep) ++ (L2 ++ ',' :: ' ' :: F2) :=
    stripLeft_append_of_ne _ h12l h12ne
  have hA0r : stripRight isWsC (((L1 ++ ',' :: ' ' :: F1) ++ sep) ++
        (L2 ++ ',' :: ' ' :: F2)) =
      ((L1 ++ ',' :: ' ' :: F1) ++ sep) ++ (L2 ++ ',' :: ' ' :: F2) := by
    have h2 : ((L1 ++ ',' :: ' ' :: F1) ++ sep) ++ (L2 ++ ',' :: ' ' :: F2) =
        (((L1 ++ ',' :: ' ' :: F1) ++ sep) ++ (L2 ++ [',', ' '])) ++ F2 := by simp
    rw [h2, stripRight_append (p := isWsC) (y := F2) _ (by rw [hF2r]; exact hF2ne), hF2r]
  have hps : pstrip ((((L1 ++ ',' :: ' ' :: F1) ++ sep) ++
        (L2 ++ ',' :: ' ' :: F2)) ++ [' ']) =
      ((L1 ++ ',' :: ' ' :: F1) ++ sep) ++ (L2 ++ ',' :: ' ' :: F2) :=
    pstrip_snoc_space hA0l hA0r
  have hrd : rstripDot (((L1 ++ ',' :: ' ' :: F1) ++ sep) ++ (L2 ++ ',' :: ' ' :: F2)) =
      ((L1 ++ ',' :: ' ' :: F1) ++ sep) ++ (L2 ++ ',' :: ' ' :: rstripDot F2) := by
    have h2 : ((L1 ++ ',' :: ' ' :: F1) ++ sep) ++ (L2 ++ ',' :: ' ' :: F2) =
        (((L1 ++ ',' :: ' ' :: F1) ++ sep) ++ (L2 ++ [',', ' '])) ++ F2 := by simp
    have h3 : ((L1 ++ ',' :: ' ' :: F1) ++ sep) ++ (L2 ++ ',' :: ' ' :: rstripDot F2) =
        (((L1 ++ ',' :: ' ' :: F1) ++ sep) ++ (L2 ++ [',', ' '])) ++ rstripDot F2 := by simp
    rw [h2, h3, rstripDot_append hF2dne]
  have hauth : parseAuthors (rstripDot (pstrip ((((L1 ++ ',' :: ' ' :: F1) ++ sep) ++
        (L2 ++ ',' :: ' ' :: F2)) ++ [' ']))) =
      Except.ok [(L1, rstripDot F1), (L2, rstripDot F2)] := by
    rw [hps, hrd]
    exact parseAuthors_pair hsep2 hL1c hL1l hL1r hL1ne hL1a hF1a hF1r hF1dne hF1dl hF1dr
      hF1lc hL2c hL2l hL2r hL2ne hL2a (fun h => hF2a (mem_stripRight h)) hF2dne hF2dl hF2dr
      (rstripDot_idem F2) hsp1 hdc1 hsp2 hdc2
  have h := parse_book_structured hnorm hApar hy1 hy2 hy3 hy4 hauth hTd hTne hTl hTr
    hPd hPne hPl hPr
  rw [h, hTe, pstrip_eq_self hTl hTr]

/-- C6, witness: the two-author citation
`Simon, H. A., & Newell, A. (1972). Human Problem Solving. Prentice-Hall.`
instantiates the claim with the `", & "` joiner and parses to the authors
`(Simon, H. A)` and `(Newell, A)` in that left-to-right order. -/
theorem C6_two_author_order_witness :
    parse_book_apa_like (bookCitation ((("Simon").data ++ ',' :: ' ' :: ("H. A.").data) ++
        (", & ").data ++ (("Newell").data ++ ',' :: ' ' :: ("A.").data))
        '1' '9' '7' '2' ("Human Problem Solving").data ("Prentice-Hall").data) =
      Except.ok ⟨[(("Simon").data, rstripDot ("H. A.").data),
          (("Newell").data, rstripDot ("A.").data)], ['1', '9', '7', '2'],
        ("Human Problem Solving").data, ("Prentice-Hall").data⟩ ∧
    bookCitation ((("Simon").data ++ ',' :: ' ' :: ("H. A.").data) ++ (", & ").data ++
        (("Newell").data ++ ',' :: ' ' :: ("A.").data)) '1' '9' '7' '2'
        ("Human Problem Solving").data ("Prentice-Hall").data =
      ("Simon, H. A., & Newell, A. (1972). Human Problem Solving. Prentice-Hall.").data := by
  constructor
  · exact C6_two_author_order ("Simon").data ("H. A.").data ("Newell").data ("A.").data
      (", & ").data '1' '9' '7' '2' ("Human Problem Solving").data ("Prentice-Hall").data
      (Or.inr rfl) (by decide) (by decide) (by decide) (by decide) (by decide) (by decide)
      (by decide) (by decide) (by decide) (by decide) (by decide) (by decide) (by decide)
      (by decide) (by decide) (by decide) (by decide) (by decide) (by decide) (by decide)
      (by decide) (by decide) (by decide) (by decide) (by decide) (by decide) (by decide)
      (by decide) (by decide) (by decide) (by decide) (by decide) (by decide) (by decide)
      (by decide) (by decide) (by decide) (by decide) (by decide) (by decide) (by decide)
      (by decide) (by decide)
  · decide
